import Mathlib

/-!
Verification development for the emotion-analysis message pipeline
(src/text_cleaning.py, src/data_parsers.py, src/emotion_analysis.py,
src/pipeline.py). The Python code is shallowly embedded: strings are
lists of characters, regular-expression substitutions are explicit
scanners with the same greedy, leftmost, non-overlapping semantics,
and the external collaborators (spaCy model, nltk corpus list, OpenAI
endpoint, pandas sort) are modelled at their documented interfaces.
-/

/- ===================== DEFINITIONS ===================== -/

/-- Character class of the Python regular-expression escape backslash-s
on str patterns (and, interchangeably in this development, of the
characters removed by str.strip): ASCII whitespace, the C1 separators,
NEL, NBSP, OGHAM space, the general-punctuation spaces, LINE/PARA
separators, NARROW NBSP, MMSP and IDEOGRAPHIC SPACE. -/
def isPySpace (c : Char) : Bool :=
  let n := c.val.toNat
  decide (n = 32 ∨ (9 ≤ n ∧ n ≤ 13) ∨ (28 ≤ n ∧ n ≤ 31) ∨ n = 0x85 ∨ n = 0xA0 ∨
    n = 0x1680 ∨ (0x2000 ≤ n ∧ n ≤ 0x200A) ∨ n = 0x2028 ∨ n = 0x2029 ∨
    n = 0x202F ∨ n = 0x205F ∨ n = 0x3000)

/-- Character class of the Python regular-expression escape backslash-w
on str patterns (letters, digits, underscore), restricted to the
alphabets this development reasons about: ASCII alphanumerics and
underscore, plus the Latin-1 and Latin Extended letters used by
Spanish text (U+00C0 to U+024F minus the two operator signs). All
characters of the emoji ranges, ASCII punctuation and whitespace are
non-word characters both here and in Python. -/
def pyWordChar (c : Char) : Bool :=
  let n := c.val.toNat
  decide ((48 ≤ n ∧ n ≤ 57) ∨ (65 ≤ n ∧ n ≤ 90) ∨ (97 ≤ n ∧ n ≤ 122) ∨ n = 95 ∨
    (0xC0 ≤ n ∧ n ≤ 0x24F ∧ n ≠ 0xD7 ∧ n ≠ 0xF7))

/-- Python str.lower restricted to the same alphabets: ASCII capitals
and the Latin-1 capital letters map down by 32, everything else is
unchanged. -/
def pyLowerChar (c : Char) : Char :=
  let n := c.val.toNat
  if 65 ≤ n ∧ n ≤ 90 then Char.ofNat (n + 32)
  else if 0xC0 ≤ n ∧ n ≤ 0xDE ∧ n ≠ 0xD7 then Char.ofNat (n + 32)
  else c

/-- Python str.lower over a whole string. -/
def pyLower (s : String) : String := String.mk (s.data.map pyLowerChar)

/-- Membership in the character class of EMOJI_PATTERN
(src/text_cleaning.py lines 25-33): the four codepoint ranges
U+1F600-U+1F64F, U+1F300-U+1F5FF, U+1F680-U+1F6FF, U+1F1E0-U+1F1FF. -/
def isEmojiChar (c : Char) : Bool :=
  let n := c.val.toNat
  decide ((0x1F600 ≤ n ∧ n ≤ 0x1F64F) ∨ (0x1F300 ≤ n ∧ n ≤ 0x1F5FF) ∨
    (0x1F680 ≤ n ∧ n ≤ 0x1F6FF) ∨ (0x1F1E0 ≤ n ∧ n ≤ 0x1F1FF))

/-- Decision of the ASCII digit class. -/
def isAsciiDigit (c : Char) : Bool :=
  decide (48 ≤ c.val.toNat ∧ c.val.toNat ≤ 57)

/-- Python str.strip on a character list: drop the whitespace border on
both sides. -/
def pyStripList (l : List Char) : List Char :=
  ((l.dropWhile isPySpace).reverse.dropWhile isPySpace).reverse

/-- Python str.strip on a string. -/
def pyStrip (s : String) : String := String.mk (pyStripList s.data)

/-- Test for three or more copies of the same character in a row
(the shape matched by REPEATED_CHARS, src/text_cleaning.py line 38). -/
def hasTriple : List Char → Bool
  | a :: b :: c :: rest => (a = b ∧ b = c : Bool) || hasTriple (b :: c :: rest)
  | _ => false

/-- Contiguous-substring relation on character lists; token texts
produced by the spaCy tokenizer are contiguous substrings of the text
handed to the model. -/
def subSegment (l₁ l₂ : List Char) : Prop := ∃ p s, p ++ l₁ ++ s = l₂

/-- Run-length encoding of a character list; the scanner of the
REPEATED_CHARS substitution works on maximal runs, which this encoding
makes explicit. -/
def rle : List Char → List (Char × Nat)
  | [] => []
  | c :: cs =>
    match rle cs with
    | (d, k) :: rest => if c = d then (d, k + 1) :: rest else (c, 1) :: (d, k) :: rest
    | [] => [(c, 1)]

/-- Substitution re.sub of the pattern REPEATED_CHARS, a group followed
by two or more backreferences, by the single group (src/text_cleaning.py
line 89): each maximal run of three or more equal characters collapses
to one occurrence, shorter runs are untouched. -/
def collapseRepeats (l : List Char) : List Char :=
  (rle l).flatMap fun p => List.replicate (if 3 ≤ p.2 then 1 else p.2) p.1

/-- Scanner of re.sub of one-or-more whitespace by a single space
(src/text_cleaning.py line 90): the flag records whether the previous
character was part of a whitespace run already rewritten. -/
def collapseWsAux : Bool → List Char → List Char
  | _, [] => []
  | prevSpace, c :: cs =>
    if isPySpace c then
      if prevSpace then collapseWsAux true cs else ' ' :: collapseWsAux true cs
    else c :: collapseWsAux false cs

/-- Substitution of whitespace runs by single spaces. -/
def collapseWs (l : List Char) : List Char := collapseWsAux false l

/-- Substitution re.sub of the class complement of word-and-whitespace
by a space (src/text_cleaning.py line 88). -/
def punctSub (l : List Char) : List Char :=
  l.map fun c => if ¬ pyWordChar c ∧ ¬ isPySpace c then ' ' else c

/-- Matcher for the suffix colon-slash-slash-nonspace-plus of
URL_PATTERN (src/text_cleaning.py line 24); returns the unconsumed
remainder on success. The final greedy one-or-more of non-whitespace
needs no backtracking because nothing follows it in the pattern. -/
def tryHttpTail (l : List Char) : Option (List Char) :=
  match l with
  | ':' :: '/' :: '/' :: r =>
    if (r.takeWhile fun c => !(isPySpace c)).isEmpty then none
    else some (r.dropWhile fun c => !(isPySpace c))
  | _ => none

/-- Matcher for URL_PATTERN at the current position: the http branch
with its optional s (greedy, so the s variant is tried first), or the
www branch. -/
def tryUrl (l : List Char) : Option (List Char) :=
  match l with
  | 'h' :: 't' :: 't' :: 'p' :: r =>
    (match r with
     | 's' :: r1 => (tryHttpTail r1).orElse fun _ => tryHttpTail r
     | _ => tryHttpTail r)
  | 'w' :: 'w' :: 'w' :: '.' :: r =>
    if (r.takeWhile fun c => !(isPySpace c)).isEmpty then none
    else some (r.dropWhile fun c => !(isPySpace c))
  | _ => none

/-- Matcher for MENTION_PATTERN (src/text_cleaning.py line 34), an at
sign followed by one or more word characters. -/
def tryMention (l : List Char) : Option (List Char) :=
  match l with
  | '@' :: r =>
    if (r.takeWhile pyWordChar).isEmpty then none
    else some (r.dropWhile pyWordChar)
  | _ => none

/-- Consume exactly k ASCII digits, returning the remainder. -/
def takeDigits (k : Nat) (l : List Char) : Option (List Char) :=
  if (l.take k).length = k ∧ (l.take k).all isAsciiDigit then some (l.drop k) else none

/-- Matcher for the tail six-to-fourteen digits of PHONE_PATTERN
(src/text_cleaning.py line 35); the greedy repetition takes at most
fourteen digits and needs at least six. -/
def phoneTail (l : List Char) : Option (List Char) :=
  let ds := l.takeWhile isAsciiDigit
  if 6 ≤ ds.length then some (l.drop (min ds.length 14)) else none

/-- Matcher for PHONE_PATTERN after the plus sign with a fixed count of
country-code digits: the optional dash-or-space separator is greedy, so
the variant that consumes it is tried first. -/
def tryPhoneLen (k : Nat) (r : List Char) : Option (List Char) :=
  match takeDigits k r with
  | some r1 =>
    (match r1 with
     | c :: r2 => if c = '-' ∨ c = ' ' then (phoneTail r2).orElse fun _ => phoneTail r1
                  else phoneTail r1
     | [] => none)
  | none => none

/-- Matcher for PHONE_PATTERN: a literal plus, one to three digits
(greedy, three first), an optional separator, then six to fourteen
digits. -/
def tryPhone (l : List Char) : Option (List Char) :=
  match l with
  | '+' :: r => ((tryPhoneLen 3 r).orElse fun _ => tryPhoneLen 2 r).orElse fun _ => tryPhoneLen 1 r
  | _ => none

/-- Test of a word-boundary position given the character on the left of
the position when that character is a word character on the right: the
boundary holds when there is no character on the left or it is not a
word character. -/
def prevBoundary : Option Char → Bool
  | some c => !(pyWordChar c)
  | none => true

/-- Test of a word boundary right after a word character: the next
character must be absent or not a word character. -/
def nextBoundary : List Char → Bool
  | [] => true
  | c :: _ => !(pyWordChar c)

/-- Matcher for the trailing two-to-four digit year of DATE_PATTERN
(src/text_cleaning.py line 36) followed by a word boundary; returns the
last consumed character (needed as left context for later boundary
tests) and the remainder. Greedy, so four digits are tried first. -/
def dateYear (k : Nat) (l : List Char) : Option (Char × List Char) :=
  match takeDigits k l with
  | some rest =>
    (match (l.take k).getLast? with
     | some d => if nextBoundary rest then some (d, rest) else none
     | none => none)
  | none => none

/-- Year alternatives of DATE_PATTERN in greedy order. -/
def dateTailY (l : List Char) : Option (Char × List Char) :=
  ((dateYear 4 l).orElse fun _ => dateYear 3 l).orElse fun _ => dateYear 2 l

/-- Matcher for the month-separator-year tail of DATE_PATTERN with a
fixed month width. -/
def dateMonth (k : Nat) (l : List Char) : Option (Char × List Char) :=
  match takeDigits k l with
  | some r1 =>
    (match r1 with
     | c :: r2 => if c = '/' ∨ c = '-' then dateTailY r2 else none
     | [] => none)
  | none => none

/-- Month alternatives of DATE_PATTERN in greedy order. -/
def dateAfterSep (l : List Char) : Option (Char × List Char) :=
  (dateMonth 2 l).orElse fun _ => dateMonth 1 l

/-- Matcher for DATE_PATTERN with a fixed day width. -/
def dateDay (k : Nat) (l : List Char) : Option (Char × List Char) :=
  match takeDigits k l with
  | some r1 =>
    (match r1 with
     | c :: r2 => if c = '/' ∨ c = '-' then dateAfterSep r2 else none
     | [] => none)
  | none => none

/-- Matcher for DATE_PATTERN at the current position given the previous
character: a leading word boundary, one or two digits, a slash or dash,
one or two digits, a slash or dash, two to four digits, a trailing word
boundary. -/
def tryDate (prev : Option Char) (l : List Char) : Option (Char × List Char) :=
  if prevBoundary prev then (dateDay 2 l).orElse fun _ => dateDay 1 l else none

/-- Matcher for the minutes of TIME_PATTERN (src/text_cleaning.py line
37) followed by a word boundary. -/
def timeMinutes (l : List Char) : Option (Char × List Char) :=
  match takeDigits 2 l with
  | some rest =>
    (match (l.take 2).getLast? with
     | some d => if nextBoundary rest then some (d, rest) else none
     | none => none)
  | none => none

/-- Matcher for TIME_PATTERN with a fixed hour width. -/
def timeHour (k : Nat) (l : List Char) : Option (Char × List Char) :=
  match takeDigits k l with
  | some r1 =>
    (match r1 with
     | ':' :: r2 => timeMinutes r2
     | _ => none)
  | none => none

/-- Matcher for TIME_PATTERN at the current position: a leading word
boundary, one or two digits, a colon, exactly two digits, a trailing
word boundary. -/
def tryTime (prev : Option Char) (l : List Char) : Option (Char × List Char) :=
  if prevBoundary prev then (timeHour 2 l).orElse fun _ => timeHour 1 l else none

/-- Scanner of re.sub with an empty replacement for a context-free
matcher: at every position try the matcher; on a match drop the
consumed characters and continue after them, otherwise emit the
character and move one position right. The fuel starts at the length of
the list; every step consumes at least one character, so the fuel never
runs out before the scan ends. -/
def subDelAux (tm : List Char → Option (List Char)) : Nat → List Char → List Char
  | 0, l => l
  | _ + 1, [] => []
  | fuel + 1, c :: cs =>
    match tm (c :: cs) with
    | some rest => subDelAux tm fuel rest
    | none => c :: subDelAux tm fuel cs

/-- Scanner of re.sub with an empty replacement for a matcher that
needs the previous character of the original string as left context for
word boundaries; after a match the left context becomes the last
consumed character. -/
def subDelCtxAux (tm : Option Char → List Char → Option (Char × List Char)) :
    Option Char → Nat → List Char → List Char
  | _, 0, l => l
  | _, _ + 1, [] => []
  | prev, fuel + 1, c :: cs =>
    match tm prev (c :: cs) with
    | some (last, rest) => subDelCtxAux tm (some last) fuel rest
    | none => c :: subDelCtxAux tm (some c) fuel cs

/-- Substitution URL_PATTERN.sub with an empty string. -/
def urlSub (l : List Char) : List Char := subDelAux tryUrl l.length l

/-- Substitution EMOJI_PATTERN.sub with an empty string: the pattern is
one-or-more characters of the emoji class, so the maximal-run deletions
remove exactly the characters of the class. -/
def emojiSubList (l : List Char) : List Char := l.filter fun c => !(isEmojiChar c)

/-- Substitution MENTION_PATTERN.sub with an empty string. -/
def mentionSub (l : List Char) : List Char := subDelAux tryMention l.length l

/-- Substitution PHONE_PATTERN.sub with an empty string. -/
def phoneSub (l : List Char) : List Char := subDelAux tryPhone l.length l

/-- Substitution DATE_PATTERN.sub with an empty string. -/
def dateSub (l : List Char) : List Char := subDelCtxAux tryDate none l.length l

/-- Substitution TIME_PATTERN.sub with an empty string. -/
def timeSub (l : List Char) : List Char := subDelCtxAux tryTime none l.length l

/-- First line of clean_text (src/text_cleaning.py line 79): lowercase,
then rewrite line feeds and carriage returns to spaces. -/
def stage1 (text : String) : List Char :=
  (pyLower text).data.map fun c => if c = '\n' ∨ c = '\r' then ' ' else c

/-- Regex cascade of clean_text (src/text_cleaning.py lines 79-90), the
string handed to the spaCy pipeline: lowercase and line-break removal,
URL, emoji, mention, phone, date and time deletion, punctuation to
space, repeated-character collapse, whitespace collapse and strip. -/
def preclean (text : String) : String :=
  String.mk (pyStripList (collapseWs (collapseRepeats (punctSub
    (timeSub (dateSub (phoneSub (mentionSub (emojiSubList (urlSub (stage1 text)))))))))))

/-- Token of the spaCy document: surface text, model-assigned lemma and
the like_num flag. The spaCy attribute lower_ is by definition the
lowercase of the surface text, so it is written pyLower of the text
rather than stored. -/
structure SpacyToken where
  text : String
  lemma_ : String
  like_num : Bool
deriving DecidableEq

/-- External linguistic environment of src/text_cleaning.py lines
18-22: the spaCy tokenizer, the spaCy default stop words, the nltk
Spanish stop words and CUSTOM_STOPWORDS from the configuration. -/
structure NlpEnv where
  tokenize : String → List SpacyToken
  spacy_stops : List String
  nltk_stops : List String
  custom_stops : List String

/-- Union of the three stopword sources (src/text_cleaning.py line 22);
only membership matters, so the union is modelled by concatenation. -/
def spanish_stopwords (env : NlpEnv) : List String :=
  env.spacy_stops ++ env.nltk_stops ++ env.custom_stops

/-- Filter condition of the token comprehension (src/text_cleaning.py
lines 93-97): the lowercased surface form is not a stopword and the
token is not numeric-like. -/
def token_keep (env : NlpEnv) (t : SpacyToken) : Bool :=
  !((spanish_stopwords env).contains (pyLower t.text)) && !t.like_num

/-- Python str.join with a single-space separator. -/
def joinSpace : List (List Char) → List Char
  | [] => []
  | [t] => t
  | t :: ts => t ++ ' ' :: joinSpace ts

/-- Embedding of clean_text (src/text_cleaning.py lines 60-98): empty
or all-whitespace input returns the empty string; otherwise the regex
cascade runs, the result is tokenized, tokens whose lowercased surface
form is a stopword or numeric-like are dropped, and the lower_ forms of
the survivors are joined with single spaces. -/
def clean_text (env : NlpEnv) (text : String) : String :=
  if pyStrip text = "" then ""
  else
    let doc := env.tokenize (preclean text)
    String.mk (joinSpace (((doc.filter (token_keep env)).map fun t => (pyLower t.text).data)))

/-- Scanner of EMOJI_PATTERN.findall: each match is a maximal run of
one or more emoji-class characters; the fuel starts at the length of
the list and every step consumes at least one character. -/
def emojiFindallAux : Nat → List Char → List (List Char)
  | 0, _ => []
  | _ + 1, [] => []
  | fuel + 1, c :: cs =>
    if isEmojiChar c then
      (c :: cs.takeWhile isEmojiChar) :: emojiFindallAux fuel (cs.dropWhile isEmojiChar)
    else emojiFindallAux fuel cs

/-- Embedding of extract_emojis (src/text_cleaning.py lines 41-57):
empty or all-whitespace input returns the empty string, otherwise the
findall matches are concatenated in order. -/
def extract_emojis (text : String) : String :=
  if pyStrip text = "" then ""
  else String.mk ((emojiFindallAux text.data.length text.data).flatMap id)

/-- Value produced by json.loads: a JSON string, number, boolean, null,
array or object. Objects are carried as field lists; a lookup takes the
last binding of a key, matching the way json.loads builds a dict. -/
inductive Json where
  | str (s : String)
  | num (n : Int)
  | bool (b : Bool)
  | null
  | arr (elems : List Json)
  | obj (fields : List (String × Json))

/-- Observable outcome of one chunk request at the classifier boundary
(src/emotion_analysis.py lines 92-113): the call raised, or it returned
content whose strict JSON parse either failed (none) or produced a
value. The composition of the opaque endpoint with json.loads is
modelled directly at the parsed level because json.loads is total on
strings up to this distinction. -/
inductive ChunkOutcome where
  | raised
  | response (parsed : Option Json)

/-- Decision that a chunk outcome took one of the two failure paths:
the call raised, or the content was not valid JSON. -/
def chunkFails : ChunkOutcome → Bool
  | .raised => true
  | .response none => true
  | .response (some _) => false

/-- Configuration of the classifier: VALID_EMOTIONS and
UNKNOWN_EMOTION_LABEL from config.py (environment-supplied). -/
structure EmotionCfg where
  valid : List String
  unknown : String

/-- Dict lookup of a key in a parsed JSON object, keeping the last
binding as json.loads does. -/
def lookupLast (fields : List (String × Json)) (key : String) : Option Json :=
  ((fields.filter fun p => p.1 == key).getLast?).map fun p => p.2

/-- Embedding of parsed_json.get(key, UNKNOWN_EMOTION_LABEL).lower()
(src/emotion_analysis.py line 118). A missing key falls back to the
default label and lowers it; none models the AttributeError raised when
parsed_json is not a dict, or when the value under the key is not a
string and has no lower method. -/
def jsonGetLower (j : Json) (key : String) (default : String) : Option String :=
  match j with
  | .obj fields =>
    (match lookupLast fields key with
     | some (.str s) => some (pyLower s)
     | some _ => none
     | none => some (pyLower default))
  | _ => none

/-- Per-item loop over a successfully parsed chunk response
(src/emotion_analysis.py lines 116-121): item i looks up the one-based
key str(i+1); a label outside the lowercased valid set is replaced by
the fallback label. The boolean is false when an AttributeError escaped
at the current item, aborting the loop with only the labels appended so
far. -/
def itemLoop (cfg : EmotionCfg) (j : Json) : Nat → Nat → List String × Bool
  | _, 0 => ([], true)
  | i, n + 1 =>
    match jsonGetLower j (toString (i + 1)) cfg.unknown with
    | none => ([], false)
    | some raw =>
      let emo := if (cfg.valid.map pyLower).contains raw then raw else cfg.unknown
      let r := itemLoop cfg j (i + 1) n
      (emo :: r.1, r.2)

/-- Labels appended for one chunk (src/emotion_analysis.py lines
92-127): a raised call or invalid JSON fills the whole chunk with the
fallback label; on a parsed response the item loop runs, and if it
aborts with an exception the outer handler appends a full chunk of
fallback labels after the labels already appended. -/
def chunkProcess (cfg : EmotionCfg) (batch : List String) : ChunkOutcome → List String
  | .raised => List.replicate batch.length cfg.unknown
  | .response none => List.replicate batch.length cfg.unknown
  | .response (some j) =>
    let r := itemLoop cfg j 0 batch.length
    if r.2 then r.1 else r.1 ++ List.replicate batch.length cfg.unknown

/-- Contiguous chunking of the input list, fuelled by its length; a
chunk size of zero would make range raise in Python, so it is mapped to
the empty result and excluded by hypothesis wherever it matters. -/
def chunksOfAux (n : Nat) : Nat → List String → List (List String)
  | 0, _ => []
  | _ + 1, [] => []
  | fuel + 1, l => l.take n :: chunksOfAux n fuel (l.drop n)

/-- Partition of the texts into contiguous chunks of at most n items
(src/emotion_analysis.py lines 76-77). -/
def chunksOf (n : Nat) (l : List String) : List (List String) :=
  if n = 0 then [] else chunksOfAux n l.length l

/-- Sequential processing of the chunks from index k on, appending each
chunk result to the running output. -/
def runChunks (cfg : EmotionCfg) (oracle : Nat → ChunkOutcome) : Nat → List (List String) → List String
  | _, [] => []
  | k, c :: cs => chunkProcess cfg c (oracle k) ++ runChunks cfg oracle (k + 1) cs

/-- Embedding of classify_texts_in_bulk (src/emotion_analysis.py lines
28-130) over an oracle giving the outcome of the remote call for every
chunk index. -/
def classify_texts_in_bulk (cfg : EmotionCfg) (texts : List String) (max_per_chunk : Nat)
    (oracle : Nat → ChunkOutcome) : List String :=
  runChunks cfg oracle 0 (chunksOf max_per_chunk texts)

/-- Naive local date-time, the value built by datetime.strptime; no
time zone, matching the explicit non-goal of the pipeline. -/
structure DateTime where
  year : Nat
  month : Nat
  day : Nat
  hour : Nat
  minute : Nat
  second : Nat
deriving DecidableEq

/-- Canonical message record shared by both extractors: the columns
datetime, sender, message of the DataFrames built in
src/data_parsers.py. -/
structure PMsg where
  dt : DateTime
  sender : String
  message : String
deriving DecidableEq

/-- Numeric value of an ASCII digit. -/
def digitVal (c : Char) : Nat := c.val.toNat - 48

/-- Leap-year rule used by the datetime constructor. -/
def isLeap (y : Nat) : Bool := decide (y % 4 = 0 ∧ (y % 100 ≠ 0 ∨ y % 400 = 0))

/-- Month lengths used by the datetime constructor for validation. -/
def daysInMonth (y m : Nat) : Nat :=
  if m = 2 then (if isLeap y then 29 else 28)
  else if m = 4 ∨ m = 6 ∨ m = 9 ∨ m = 11 then 30
  else 31

/-- Alternatives of the strptime directive for a day: the generated
pattern is two-digit forms 01 to 31 first, then a single nonzero
digit, with backtracking into the one-digit branch when the
continuation fails. -/
def pDay : List Char → List (Nat × List Char) := fun l =>
  (match l with
   | a :: b :: r =>
     if isAsciiDigit a ∧ isAsciiDigit b ∧ 1 ≤ 10 * digitVal a + digitVal b ∧
        10 * digitVal a + digitVal b ≤ 31 then [(10 * digitVal a + digitVal b, r)] else []
   | _ => []) ++
  (match l with
   | a :: r => if isAsciiDigit a ∧ 1 ≤ digitVal a ∧ digitVal a ≤ 9 then [(digitVal a, r)] else []
   | _ => [])

/-- Alternatives of the strptime directive for a month (also used for
a twelve-hour clock hour, whose generated pattern is the same): two
digit forms 01 to 12 first, then a single nonzero digit. -/
def pMonth : List Char → List (Nat × List Char) := fun l =>
  (match l with
   | a :: b :: r =>
     if isAsciiDigit a ∧ isAsciiDigit b ∧ 1 ≤ 10 * digitVal a + digitVal b ∧
        10 * digitVal a + digitVal b ≤ 12 then [(10 * digitVal a + digitVal b, r)] else []
   | _ => []) ++
  (match l with
   | a :: r => if isAsciiDigit a ∧ 1 ≤ digitVal a ∧ digitVal a ≤ 9 then [(digitVal a, r)] else []
   | _ => [])

/-- Alternatives of the strptime directive for a minute or second: two
digit forms 00 to 59 first, then any single digit. -/
def pMinute : List Char → List (Nat × List Char) := fun l =>
  (match l with
   | a :: b :: r =>
     if isAsciiDigit a ∧ isAsciiDigit b ∧ 10 * digitVal a + digitVal b ≤ 59
     then [(10 * digitVal a + digitVal b, r)] else []
   | _ => []) ++
  (match l with
   | a :: r => if isAsciiDigit a then [(digitVal a, r)] else []
   | _ => [])

/-- Alternatives of the strptime directive for a twenty-four hour
clock hour: two-digit forms 00 to 23 first, then any single digit. -/
def pHour24 : List Char → List (Nat × List Char) := fun l =>
  (match l with
   | a :: b :: r =>
     if isAsciiDigit a ∧ isAsciiDigit b ∧ 10 * digitVal a + digitVal b ≤ 23
     then [(10 * digitVal a + digitVal b, r)] else []
   | _ => []) ++
  (match l with
   | a :: r => if isAsciiDigit a then [(digitVal a, r)] else []
   | _ => [])

/-- Strptime directive for a four-digit year. -/
def pYear4 : List Char → List (Nat × List Char) := fun l =>
  match l with
  | a :: b :: c :: d :: r =>
    if isAsciiDigit a ∧ isAsciiDigit b ∧ isAsciiDigit c ∧ isAsciiDigit d
    then [(1000 * digitVal a + 100 * digitVal b + 10 * digitVal c + digitVal d, r)] else []
  | _ => []

/-- Strptime directive for the AM-PM marker, case-insensitive; the
value is zero for AM and one for PM. -/
def pAmPm : List Char → List (Nat × List Char) := fun l =>
  match l with
  | a :: b :: r =>
    if (a = 'a' ∨ a = 'A') ∧ (b = 'm' ∨ b = 'M') then [(0, r)]
    else if (a = 'p' ∨ a = 'P') ∧ (b = 'm' ∨ b = 'M') then [(1, r)]
    else []
  | _ => []

/-- Literal character inside a strptime format. -/
def pLit (c : Char) : List Char → List (List Char) := fun l =>
  match l with
  | x :: r => if x = c then [r] else []
  | [] => []

/-- Whitespace inside a strptime format matches one or more whitespace
characters of the data string. -/
def pWs : List Char → List (List Char) := fun l =>
  if (l.takeWhile isPySpace).isEmpty then [] else [l.dropWhile isPySpace]

/-- Validation performed by the datetime constructor after strptime
captures the fields: the year is at least one and the day fits the
month. -/
def mkValidDate (y m d hh mm ss : Nat) : Option DateTime :=
  if 1 ≤ y ∧ 1 ≤ d ∧ d ≤ daysInMonth y m then some ⟨y, m, d, hh, mm, ss⟩ else none

/-- Embedding of datetime.strptime with the WhatsApp format of
src/data_parsers.py line 72, day/month/four-digit-year, a space,
twelve-hour clock hour, colon, minute, AM-PM marker, with the same
alternative ordering and backtracking as the generated pattern and the
full-match requirement of strptime. -/
def strptime_wa (l : List Char) : Option DateTime :=
  ((pDay l).flatMap fun d =>
    (pLit '/' d.2).flatMap fun r1 =>
      (pMonth r1).flatMap fun m =>
        (pLit '/' m.2).flatMap fun r2 =>
          (pYear4 r2).flatMap fun y =>
            (pWs y.2).flatMap fun r3 =>
              (pMonth r3).flatMap fun h12 =>
                (pLit ':' h12.2).flatMap fun r4 =>
                  (pMinute r4).flatMap fun mi =>
                    (pAmPm mi.2).flatMap fun ap =>
                      if ap.2 = ([] : List Char) then
                        let hh := if ap.1 = 1 then (if h12.1 = 12 then 12 else h12.1 + 12)
                                  else (if h12.1 = 12 then 0 else h12.1)
                        match mkValidDate y.1 m.1 d.1 hh mi.1 0 with
                        | some dtv => [dtv]
                        | none => []
                      else []).head?

/-- Embedding of datetime.strptime with the Telegram format of
src/data_parsers.py line 148: day.month.four-digit-year, a space,
twenty-four hour clock, colon, minute, colon, second. -/
def strptime_tg (l : List Char) : Option DateTime :=
  ((pDay l).flatMap fun d =>
    (pLit '.' d.2).flatMap fun r1 =>
      (pMonth r1).flatMap fun m =>
        (pLit '.' m.2).flatMap fun r2 =>
          (pYear4 r2).flatMap fun y =>
            (pWs y.2).flatMap fun r3 =>
              (pHour24 r3).flatMap fun hh =>
                (pLit ':' hh.2).flatMap fun r4 =>
                  (pMinute r4).flatMap fun mi =>
                    (pLit ':' mi.2).flatMap fun r5 =>
                      (pMinute r5).flatMap fun ss =>
                        if ss.2 = ([] : List Char) then
                          match mkValidDate y.1 m.1 d.1 hh.1 mi.1 ss.1 with
                          | some dtv => [dtv]
                          | none => []
                        else []).head?

/-- Alternatives of a regular-expression step: each entry is a count of
consumed characters and the remainder, listed in the backtracking
priority order of the pattern. -/
def StepAlts : Type := List Char → List (Nat × List Char)

/-- Sequencing of two steps; the priority order of the combined
alternatives is the backtracking order of the pattern. -/
def stepSeq (f g : StepAlts) : StepAlts := fun l =>
  (f l).flatMap fun p => (g p.2).map fun q => (p.1 + q.1, q.2)

/-- Step for a literal character. -/
def stepLit (c : Char) : StepAlts := fun l =>
  match l with
  | x :: r => if x = c then [(1, r)] else []
  | [] => []

/-- Step for exactly k digits. -/
def stepDigits (k : Nat) : StepAlts := fun l =>
  if (l.take k).length = k ∧ (l.take k).all isAsciiDigit then [(k, l.drop k)] else []

/-- Step for one-or-two digits, greedy. -/
def stepD12 : StepAlts := fun l => stepDigits 2 l ++ stepDigits 1 l

/-- Step for a greedy whitespace star; deterministic here because the
following pattern element never matches whitespace. -/
def stepWsStar : StepAlts := fun l =>
  [((l.takeWhile isPySpace).length, l.dropWhile isPySpace)]

/-- Step for an optional single whitespace, greedy. -/
def stepWsOpt : StepAlts := fun l =>
  match l with
  | c :: r => if isPySpace c then [(1, r), (0, l)] else [(0, l)]
  | [] => [(0, l)]

/-- Step for an optional literal dot, greedy. -/
def stepDotOpt : StepAlts := fun l =>
  match l with
  | '.' :: r => [(1, r), (0, l)]
  | _ => [(0, l)]

/-- Step for the character class of a lowercase or capital a or p
(the pattern carries the IGNORECASE flag). -/
def stepAP : StepAlts := fun l =>
  match l with
  | c :: r => if c = 'a' ∨ c = 'A' ∨ c = 'p' ∨ c = 'P' then [(1, r)] else []
  | [] => []

/-- Step for the literal m under IGNORECASE. -/
def stepM : StepAlts := fun l =>
  match l with
  | c :: r => if c = 'm' ∨ c = 'M' then [(1, r)] else []
  | [] => []

/-- Date group of the WhatsApp line pattern (src/data_parsers.py line
40): one-or-two digits, slash, one-or-two digits, slash, four
digits. -/
def waDateSteps : StepAlts :=
  stepSeq stepD12 (stepSeq (stepLit '/') (stepSeq stepD12 (stepSeq (stepLit '/') (stepDigits 4))))

/-- Time group of the WhatsApp line pattern: one-or-two digits, colon,
two digits, an optional whitespace, the a-or-p class, an optional dot,
the m literal, an optional dot. There is no room for whitespace between
the first dot and the m. -/
def waTimeSteps : StepAlts :=
  stepSeq stepD12 (stepSeq (stepLit ':') (stepSeq (stepDigits 2) (stepSeq stepWsOpt
    (stepSeq stepAP (stepSeq stepDotOpt (stepSeq stepM stepDotOpt))))))

/-- Tail of the WhatsApp line pattern after the time group: whitespace
star, the dash, whitespace star, then the dot-star group capturing the
rest of the line (lines carry no embedded newline). Returns the third
capture group. -/
def waTail (l : List Char) : Option (List Char) :=
  match l.dropWhile isPySpace with
  | '-' :: r => some (r.dropWhile isPySpace)
  | _ => none

/-- Full match of the WhatsApp line pattern against a stripped line,
returning the three capture groups: date text, time text, rest. The
candidate list enumerates backtracking alternatives in priority order;
the pattern is anchored at both ends. -/
def waMatch (l : List Char) : Option (List Char × List Char × List Char) :=
  ((waDateSteps l).flatMap fun p =>
    (stepLit ',' p.2).flatMap fun q =>
      (stepWsStar q.2).flatMap fun w =>
        (waTimeSteps w.2).flatMap fun t =>
          match waTail t.2 with
          | some g3 => [(l.take p.1, w.2.take t.1, g3)]
          | none => []).head?

/-- Python str.replace scanning left to right without overlap; the
fuel starts at the length of the subject and every step consumes at
least one character for the nonempty patterns used here. -/
def pyReplaceAux (pat rep : List Char) : Nat → List Char → List Char
  | 0, l => l
  | _ + 1, [] => []
  | fuel + 1, c :: cs =>
    if (c :: cs).take pat.length = pat then rep ++ pyReplaceAux pat rep fuel ((c :: cs).drop pat.length)
    else c :: pyReplaceAux pat rep fuel cs

/-- Python str.replace on character lists. -/
def pyReplace (s pat rep : List Char) : List Char := pyReplaceAux pat rep s.length s

/-- Time normalization chain of parse_whatsapp_lines
(src/data_parsers.py lines 60-68): remove spaces, rewrite the four
meridiem spellings to AM or PM, remove dots, remove spaces again. The
space removal runs first, so the spaced spellings can never fire. -/
def normalizeTime (t : List Char) : List Char :=
  pyReplace (pyReplace (pyReplace (pyReplace (pyReplace (pyReplace (pyReplace
    t " ".data "".data)
    "a. m.".data "AM".data)
    "p. m.".data "PM".data)
    "a.m.".data "AM".data)
    "p.m.".data "PM".data)
    ".".data "".data)
    " ".data "".data

/-- Split of the content on the first colon-space, the sender-message
separator of parse_whatsapp_lines (src/data_parsers.py lines 77-81). -/
def splitColonSpace : List Char → Option (List Char × List Char)
  | ':' :: ' ' :: r => some ([], r)
  | c :: cs => (splitColonSpace cs).map fun p => (c :: p.1, p.2)
  | [] => none

/-- Embedding of the per-line work of parse_whatsapp_lines
(src/data_parsers.py lines 47-87): strip the line, match the pattern,
normalize the time text, parse the date-time, then split sender and
message, with the SYSTEM sentinel when no separator exists. A line
that fails the pattern or the date-time parse produces no record. -/
def parse_whatsapp_line (line : String) : Option PMsg :=
  match waMatch (pyStripList line.data) with
  | none => none
  | some (d, t, content) =>
    match strptime_wa (d ++ ' ' :: normalizeTime t) with
    | none => none
    | some dtv =>
      match splitColonSpace content with
      | some p => some ⟨dtv, String.mk p.1, String.mk p.2⟩
      | none => some ⟨dtv, "SYSTEM", String.mk content⟩

/-- Embedding of parse_whatsapp_lines over the lines of the file; the
non-matching lines are skipped, never fatal. -/
def parse_whatsapp_lines (lines : List String) : List PMsg :=
  lines.filterMap parse_whatsapp_line

/-- Message-container node of the Telegram document, in document order:
the class list of the div, the title attribute of the date div when
present, the stripped text of the from_name div when present, and the
stripped text of the text div when present. -/
structure TgNode where
  classes : List String
  dateTitle : Option String
  fromName : Option String
  textContent : Option String
deriving DecidableEq

/-- Part of the string before the first occurrence of the separator
space-U-T-C, the whole string when absent (Python split on a literal,
first part). -/
def splitBeforeAux (pat : List Char) : Nat → List Char → List Char
  | 0, l => l
  | _ + 1, [] => []
  | fuel + 1, c :: cs =>
    if (c :: cs).take pat.length = pat then []
    else c :: splitBeforeAux pat fuel cs

/-- Date extraction of parse_telegram_html (src/data_parsers.py lines
145-151): take the title attribute, cut at the UTC suffix, strip, and
parse with the Telegram format. -/
def tgNodeDate (n : TgNode) : Option DateTime :=
  match n.dateTitle with
  | none => none
  | some s => strptime_tg (pyStripList (splitBeforeAux " UTC".data s.data.length s.data))

/-- Reading of the carried sender state under Python truthiness
(src/data_parsers.py line 158): None and the empty string both fall to
the Unknown sentinel. -/
def tgResolve : Option String → String
  | some s => if s = "" then "Unknown" else s
  | none => "Unknown"

/-- One node of the parse_telegram_html scan (src/data_parsers.py
lines 134-174): service nodes and nodes without a parseable date are
skipped before the sender handling; a node with a from_name div
updates the carried state even when it is later skipped for lacking a
text div or having empty text; a node without one reads the carried
state. Returns the new state and the record emitted, if any. -/
def tgStep (last : Option String) (n : TgNode) : Option String × Option PMsg :=
  if n.classes.contains "service" then (last, none)
  else
    match tgNodeDate n with
    | none => (last, none)
    | some dtv =>
      let st := match n.fromName with
        | some s => (some s, s)
        | none => (last, tgResolve last)
      match n.textContent with
      | none => (st.1, none)
      | some t => if t = "" then (st.1, none) else (st.1, some ⟨dtv, st.2, t⟩)

/-- Fold of the Telegram scan from a given carried-sender state. -/
def tgParseFrom : Option String → List TgNode → List PMsg
  | _, [] => []
  | last, n :: ns =>
    match tgStep last n with
    | (st, some msg) => msg :: tgParseFrom st ns
    | (st, none) => tgParseFrom st ns

/-- Embedding of parse_telegram_html (src/data_parsers.py lines
101-178) over the document-order node list produced by find_all; the
carried sender state starts empty at every call. -/
def parse_telegram_html (nodes : List TgNode) : List PMsg := tgParseFrom none nodes

/-- Carried-sender state after scanning a node list. -/
def tgStateAfter : Option String → List TgNode → Option String
  | last, [] => last
  | last, n :: ns => tgStateAfter (tgStep last n).1 ns

/-- Explicit senders seen by the scan, in order: the from_name texts of
the non-service nodes with a parseable date. -/
def tgSeen (nodes : List TgNode) : List String :=
  nodes.filterMap fun n =>
    if n.classes.contains "service" then none
    else match tgNodeDate n with
    | none => none
    | some _ => n.fromName

/-- Row of the unified DataFrame sorted in src/pipeline.py lines
113-115: timestamp, sender, message and channel tag. -/
structure MRow where
  dt : DateTime
  sender : String
  message : String
  tipo : String
deriving DecidableEq

/-- Chronological comparison of date-times, lexicographic on the six
fields. -/
def dtLeB (a b : DateTime) : Bool :=
  if a.year ≠ b.year then decide (a.year < b.year)
  else if a.month ≠ b.month then decide (a.month < b.month)
  else if a.day ≠ b.day then decide (a.day < b.day)
  else if a.hour ≠ b.hour then decide (a.hour < b.hour)
  else if a.minute ≠ b.minute then decide (a.minute < b.minute)
  else decide (a.second ≤ b.second)

/-- Row order by timestamp, the sort key of sort_values. -/
def rowLe (a b : MRow) : Prop := dtLeB a.dt b.dt = true

instance : DecidableRel rowLe := fun a b => inferInstanceAs (Decidable (dtLeB a.dt b.dt = true))

/-- Contract of pandas sort_values on the datetime column with the
default quicksort kind (src/pipeline.py line 114): the output is a
permutation of the input ordered by the key. The default kind gives no
stability guarantee, so the relation admits every such permutation. -/
def sort_values_spec (input output : List MRow) : Prop :=
  List.Perm output input ∧ List.Sorted rowLe output

/-- Modelled from the spec: records with equal timestamps keep their
relative order from the concatenated input (the stable-sort guarantee
the spec states for the merge). Rendered through positions of first
occurrence. -/
def tieOrderPreserved (input output : List MRow) : Prop :=
  ∀ a b : MRow, a ∈ input → b ∈ input → a.dt = b.dt →
    input.indexOf a < input.indexOf b → output.indexOf a < output.indexOf b

/-- Splitter on single spaces, fuelled by the input length; used only
to build concrete tokenizer witnesses. -/
def splitSpacesAux : Nat → List Char → List (List Char)
  | 0, _ => []
  | _ + 1, [] => []
  | fuel + 1, c :: cs =>
    if c = ' ' then splitSpacesAux fuel cs
    else (c :: cs.takeWhile fun d => !(d = ' ')) :: splitSpacesAux fuel (cs.dropWhile fun d => !(d = ' '))

/-- Concrete whitespace tokenizer standing in for the spaCy model in
witnesses: every space-separated word becomes a token whose lemma is
its own text. -/
def wsTokenizer : String → List SpacyToken :=
  fun s => (splitSpacesAux s.data.length s.data).map fun w => ⟨String.mk w, String.mk w, false⟩

/-- Witness linguistic environment with the whitespace tokenizer. -/
def envW : NlpEnv := ⟨wsTokenizer, ["al"], ["que"], []⟩

/-- Concrete linguistic environment whose tokenizer returns the
es_core_news_sm analysis of the sentence about running dogs: surface
forms perros and corren, lemmas perro and correr. -/
def envC9 : NlpEnv :=
  ⟨fun s => if s = "perros corren"
            then [⟨"perros", "perro", false⟩, ⟨"corren", "correr", false⟩] else [],
   [], [], []⟩

/-- Classifier configuration fixture with two valid labels. -/
def cfgAB : EmotionCfg := ⟨["amor", "ira"], "Neutro"⟩

/-- Oracle fixture whose every response parses to an object mapping key
one to a valid label and key two to the JSON number five. -/
def oracleNum : Nat → ChunkOutcome :=
  fun _ => .response (some (.obj [("1", .str "amor"), ("2", .num 5)]))

/-- Classifier configuration fixture whose valid label carries a
capital letter. -/
def cfgCap : EmotionCfg := ⟨["Amor"], "Neutro"⟩

/-- Oracle fixture answering the capitalized spelling of the valid
label. -/
def oracleCap : Nat → ChunkOutcome :=
  fun _ => .response (some (.obj [("1", .str "AMOR")]))

/-- Oracle fixture that raises on chunk one and answers a well-formed
object elsewhere. -/
def oracleMid : Nat → ChunkOutcome :=
  fun k => if k = 1 then .raised
           else .response (some (.obj [("1", .str "amor"), ("2", .str "ira")]))

/-- Telegram node fixture: explicit sender whose from_name div is
empty, date present, text present. -/
def nodeEmptySender : TgNode :=
  ⟨["message", "default", "clearfix"], some "01.01.2022 10:00:00 UTC-05:00", some "", some "hola"⟩

/-- Telegram node fixture: explicit sender Ana, date present, no text
div, so the node emits no record. -/
def nodeAnaNoText : TgNode :=
  ⟨["message", "default", "clearfix"], some "01.01.2022 10:00:00 UTC-05:00", some "Ana", none⟩

/-- Telegram node fixture: no from_name div, date present, nonempty
text. -/
def nodeSenderless : TgNode :=
  ⟨["message", "default", "clearfix"], some "01.01.2022 10:01:00 UTC-05:00", none, some "mundo"⟩

/-- Telegram node fixture: explicit sender Ana with text. -/
def nodeAna : TgNode :=
  ⟨["message", "default", "clearfix"], some "01.01.2022 09:59:00 UTC-05:00", some "Ana", some "hola"⟩

/-- Shared timestamp of the merge fixtures. -/
def dtTie : DateTime := ⟨2022, 1, 1, 10, 0, 0⟩

/-- WhatsApp-side merge fixture row. -/
def rowW : MRow := ⟨dtTie, "Ana", "hola", "WhatsApp"⟩

/-- Telegram-side merge fixture row with the same timestamp. -/
def rowT : MRow := ⟨dtTie, "Luis", "chau", "Telegram"⟩

/- ===================== THEOREMS ===================== -/

/-- Every label appended by the item loop is the lowercase form of a
configured valid label or the fallback label. -/
theorem itemLoop_labels (cfg : EmotionCfg) (j : Json) :
    ∀ i n, ∀ label ∈ (itemLoop cfg j i n).1,
      (∃ v ∈ cfg.valid, label = pyLower v) ∨ label = cfg.unknown := by
  intro i n
  induction n generalizing i with
  | zero => intro label h; simp [itemLoop] at h
  | succ n ih =>
    intro label h
    simp only [itemLoop] at h
    cases hg : jsonGetLower j (toString (i + 1)) cfg.unknown with
    | none => rw [hg] at h; simp at h
    | some raw =>
      rw [hg] at h
      simp only [List.mem_cons] at h
      rcases h with h | h
      · by_cases hc : (cfg.valid.map pyLower).contains raw
        · rw [if_pos hc] at h
          left
          have : raw ∈ cfg.valid.map pyLower := List.mem_of_elem_eq_true hc
          rcases List.mem_map.mp this with ⟨v, hv, hraw⟩
          exact ⟨v, hv, by rw [h, ← hraw]⟩
        · rw [if_neg hc] at h
          right; exact h
      · exact ih (i + 1) label h

/-- Every label appended for one chunk is the lowercase form of a
configured valid label or the fallback label. -/
theorem chunkProcess_labels (cfg : EmotionCfg) (batch : List String) (o : ChunkOutcome) :
    ∀ label ∈ chunkProcess cfg batch o,
      (∃ v ∈ cfg.valid, label = pyLower v) ∨ label = cfg.unknown := by
  intro label h
  cases o with
  | raised => right; exact (List.eq_of_mem_replicate h)
  | response p =>
    cases p with
    | none => right; exact (List.eq_of_mem_replicate h)
    | some j =>
      simp only [chunkProcess] at h
      by_cases hok : (itemLoop cfg j 0 batch.length).2
      · rw [if_pos hok] at h
        exact itemLoop_labels cfg j 0 batch.length label h
      · rw [if_neg hok] at h
        rcases List.mem_append.mp h with h | h
        · exact itemLoop_labels cfg j 0 batch.length label h
        · right; exact (List.eq_of_mem_replicate h)

/-- Every label in the output of the chunk runner is the lowercase
form of a configured valid label or the fallback label. -/
theorem runChunks_labels (cfg : EmotionCfg) (oracle : Nat → ChunkOutcome) :
    ∀ k chunks, ∀ label ∈ runChunks cfg oracle k chunks,
      (∃ v ∈ cfg.valid, label = pyLower v) ∨ label = cfg.unknown := by
  intro k chunks
  induction chunks generalizing k with
  | nil => intro label h; simp [runChunks] at h
  | cons c cs ih =>
    intro label h
    simp only [runChunks] at h
    rcases List.mem_append.mp h with h | h
    · exact chunkProcess_labels cfg c (oracle k) label h
    · exact ih (k + 1) label h

/-- C5 counterexample: with the configured valid label Amor and a
response answering AMOR, the output label is the lowercased amor,
which is neither a member of the configured valid-label set nor the
unknown sentinel. -/
theorem c5_counterexample :
    classify_texts_in_bulk cfgCap ["hola"] 50 oracleCap = ["amor"] ∧
    ¬ ("amor" ∈ cfgCap.valid ∨ "amor" = cfgCap.unknown) := by
  constructor
  · decide
  · decide

/-- C5 (amended): for every configuration, input, chunk size and
oracle, every label in the output of classify_texts_in_bulk is either
the lowercase form of a configured valid label or the configured
unknown sentinel verbatim; a missing index key falls back to the
sentinel, lowercased before the same case-insensitive check. -/
theorem c5_labels_closed (cfg : EmotionCfg) (texts : List String) (n : Nat)
    (oracle : Nat → ChunkOutcome) :
    ∀ label ∈ classify_texts_in_bulk cfg texts n oracle,
      (∃ v ∈ cfg.valid, label = pyLower v) ∨ label = cfg.unknown := by
  intro label h
  exact runChunks_labels cfg oracle 0 (chunksOf n texts) label h

/-- C5 witness: the amended statement applied to the counterexample
run. -/
theorem c5_labels_closed_witness :
    (∃ v ∈ cfgCap.valid, "amor" = pyLower v) ∨ "amor" = cfgCap.unknown :=
  c5_labels_closed cfgCap ["hola"] 50 oracleCap "amor" (by decide)

/-- C1: the length invariant fails on the code. With two texts in one
chunk and a response that is a valid JSON object whose second value is
the number five, the item loop appends one label, the lower call on
the number raises, and the exception handler appends a full chunk of
fallback labels: three labels for two texts. -/
theorem c1_length_violation :
    classify_texts_in_bulk cfgAB ["a", "b"] 50 oracleNum = ["amor", "Neutro", "Neutro"] ∧
    (classify_texts_in_bulk cfgAB ["a", "b"] 50 oracleNum).length ≠
      (["a", "b"] : List String).length := by
  constructor
  · decide
  · decide

/-- The chunk runner distributes over list append, advancing the chunk
index by the length of the first part. -/
theorem runChunks_append (cfg : EmotionCfg) (oracle : Nat → ChunkOutcome) (k : Nat)
    (l1 l2 : List (List String)) :
    runChunks cfg oracle k (l1 ++ l2) =
      runChunks cfg oracle k l1 ++ runChunks cfg oracle (k + l1.length) l2 := by
  induction l1 generalizing k with
  | nil => simp [runChunks]
  | cons c cs ih =>
    simp only [List.cons_append, runChunks, List.length_cons, List.append_eq]
    rw [ih (k + 1), List.append_assoc]
    congr 3
    omega

/-- The chunk runner consults the oracle only at the indices of the
chunks it processes. -/
theorem runChunks_congr (cfg : EmotionCfg) (oracle oracle2 : Nat → ChunkOutcome) (k : Nat)
    (chunks : List (List String))
    (h : ∀ j, k ≤ j → j < k + chunks.length → oracle2 j = oracle j) :
    runChunks cfg oracle2 k chunks = runChunks cfg oracle k chunks := by
  induction chunks generalizing k with
  | nil => simp [runChunks]
  | cons c cs ih =>
    simp only [runChunks]
    rw [h k (Nat.le_refl k) (by simp), ih (k + 1) (fun j h1 h2 => h j (by omega) (by simp at h2 ⊢; omega))]

/-- A chunk whose remote call raised or whose content failed the JSON
parse contributes exactly one fallback label per item. -/
theorem chunkProcess_fails (cfg : EmotionCfg) (batch : List String) (o : ChunkOutcome)
    (h : chunkFails o = true) :
    chunkProcess cfg batch o = List.replicate batch.length cfg.unknown := by
  cases o with
  | raised => rfl
  | response p => cases p with
    | none => rfl
    | some j => simp [chunkFails] at h

/-- C3: chunk-scoped fault isolation. If the remote call for chunk k
raises or returns content that is not valid JSON, the output is the
labels of the chunks before k, then one fallback label per item of
chunk k, then the labels of the chunks after k; and the segments of
the other chunks depend only on their own oracle answers, so any
oracle agreeing outside k produces the same surrounding segments. -/
theorem c3_chunk_fault_isolation (cfg : EmotionCfg) (texts : List String) (n : Nat)
    (oracle : Nat → ChunkOutcome) (k : Nat)
    (hk : k < (chunksOf n texts).length) (hf : chunkFails (oracle k) = true) :
    (classify_texts_in_bulk cfg texts n oracle =
      runChunks cfg oracle 0 ((chunksOf n texts).take k) ++
      List.replicate ((chunksOf n texts).getD k []).length cfg.unknown ++
      runChunks cfg oracle (k + 1) ((chunksOf n texts).drop (k + 1))) ∧
    (∀ oracle2 : Nat → ChunkOutcome, (∀ j, j ≠ k → oracle2 j = oracle j) →
      runChunks cfg oracle2 0 ((chunksOf n texts).take k) =
        runChunks cfg oracle 0 ((chunksOf n texts).take k) ∧
      runChunks cfg oracle2 (k + 1) ((chunksOf n texts).drop (k + 1)) =
        runChunks cfg oracle (k + 1) ((chunksOf n texts).drop (k + 1))) := by
  constructor
  · have hsplit : chunksOf n texts =
        (chunksOf n texts).take k ++ (chunksOf n texts).getD k [] :: (chunksOf n texts).drop (k + 1) := by
      rw [List.getD_eq_getElem _ _ hk]
      rw [← List.drop_eq_getElem_cons hk, List.take_append_drop]
    calc classify_texts_in_bulk cfg texts n oracle
        = runChunks cfg oracle 0 (chunksOf n texts) := rfl
      _ = runChunks cfg oracle 0 ((chunksOf n texts).take k ++
            (chunksOf n texts).getD k [] :: (chunksOf n texts).drop (k + 1)) := by rw [← hsplit]
      _ = runChunks cfg oracle 0 ((chunksOf n texts).take k) ++
            runChunks cfg oracle (0 + ((chunksOf n texts).take k).length)
              ((chunksOf n texts).getD k [] :: (chunksOf n texts).drop (k + 1)) := by
          rw [runChunks_append]
      _ = _ := by
          have hlen : ((chunksOf n texts).take k).length = k := by
            rw [List.length_take]; omega
          rw [hlen]
          simp only [Nat.zero_add, runChunks]
          rw [chunkProcess_fails cfg _ _ hf, List.append_assoc]
  · intro oracle2 hagree
    constructor
    · exact runChunks_congr cfg oracle oracle2 0 _
        (fun j h1 h2 => hagree j (by rw [List.length_take] at h2; omega))
    · exact runChunks_congr cfg oracle oracle2 (k + 1) _
        (fun j h1 h2 => hagree j (by omega))

/-- C3 witness: three texts in chunks of two, the call for chunk one
raises, the decomposition holds at the concrete run. -/
theorem c3_chunk_fault_isolation_witness :
    chunkFails (oracleMid 1) = true ∧
    classify_texts_in_bulk cfgAB ["a", "b", "c"] 2 oracleMid =
      runChunks cfgAB oracleMid 0 ((chunksOf 2 ["a", "b", "c"]).take 1) ++
      List.replicate ((chunksOf 2 ["a", "b", "c"]).getD 1 []).length cfgAB.unknown ++
      runChunks cfgAB oracleMid 2 ((chunksOf 2 ["a", "b", "c"]).drop 2) :=
  ⟨by decide,
   (c3_chunk_fault_isolation cfgAB ["a", "b", "c"] 2 oracleMid 1 (by decide) (by decide)).1⟩

/-- Length bound of dropWhile. -/
theorem length_dropWhile_le (p : Char → Bool) (l : List Char) :
    (l.dropWhile p).length ≤ l.length := by
  induction l with
  | nil => simp
  | cons c cs ih =>
    by_cases h : p c
    · simp [List.dropWhile_cons, h]; omega
    · simp [List.dropWhile_cons, h]

/-- Filtering splits at the takeWhile-dropWhile boundary. -/
theorem filter_takeWhile_dropWhile (p : Char → Bool) (l : List Char) :
    l.filter p = l.takeWhile p ++ (l.dropWhile p).filter p := by
  conv_lhs => rw [← List.takeWhile_append_dropWhile (p := p) (l := l)]
  rw [List.filter_append]
  congr 1
  exact List.filter_eq_self.mpr fun a ha => List.mem_takeWhile_imp ha

/-- Concatenating the findall matches of the emoji pattern gives the
emoji characters of the input in order. -/
theorem emojiFindall_flatten :
    ∀ fuel l, l.length ≤ fuel →
      (emojiFindallAux fuel l).flatMap id = l.filter isEmojiChar := by
  intro fuel
  induction fuel with
  | zero =>
    intro l hl
    have : l = [] := List.length_eq_zero.mp (Nat.le_zero.mp hl)
    subst this; rfl
  | succ fuel ih =>
    intro l hl
    cases l with
    | nil => rfl
    | cons c cs =>
      simp only [emojiFindallAux]
      by_cases hc : isEmojiChar c
      · rw [if_pos hc]
        simp only [List.flatMap_cons, id]
        rw [ih (cs.dropWhile isEmojiChar)
          (Nat.le_trans (length_dropWhile_le _ _) (by simpa using Nat.succ_le_succ_iff.mp hl))]
        rw [List.filter_cons_of_pos hc, filter_takeWhile_dropWhile isEmojiChar cs]
        simp
      · rw [if_neg hc]
        rw [ih cs (by simpa using Nat.succ_le_succ_iff.mp hl)]
        rw [List.filter_cons_of_neg (by simpa using hc)]

/-- A list whose elements all fail the predicate is untouched by
dropWhile. -/
theorem dropWhile_eq_self_of_not (p : Char → Bool) (l : List Char)
    (h : ∀ c ∈ l, p c = false) : l.dropWhile p = l := by
  cases l with
  | nil => rfl
  | cons c cs => rw [List.dropWhile_cons_of_neg (by simp [h c (by simp)])]

/-- Stripping a list without whitespace is the identity. -/
theorem pyStripList_eq_self (l : List Char) (h : ∀ c ∈ l, isPySpace c = false) :
    pyStripList l = l := by
  unfold pyStripList
  rw [dropWhile_eq_self_of_not _ _ h,
      dropWhile_eq_self_of_not _ _ (fun c hc => h c (by simpa using hc)),
      List.reverse_reverse]

/-- A list stripped to nothing holds only whitespace. -/
theorem pyStripList_eq_nil (l : List Char) (h : pyStripList l = []) :
    ∀ c ∈ l, isPySpace c = true := by
  unfold pyStripList at h
  rw [List.reverse_eq_nil_iff] at h
  have h2 : ∀ c ∈ (l.dropWhile isPySpace).reverse, isPySpace c = true := by
    intro c hc
    exact List.dropWhile_eq_nil_iff.mp h c hc
  have h3 : ∀ c ∈ l.dropWhile isPySpace, isPySpace c = true := by
    intro c hc; exact h2 c (by simpa using hc)
  intro c hc
  rw [← List.takeWhile_append_dropWhile (p := isPySpace) (l := l)] at hc
  rcases List.mem_append.mp hc with hc | hc
  · exact List.mem_takeWhile_imp hc
  · exact h3 c hc

/-- Whitespace characters are not emoji characters. -/
theorem space_not_emoji (c : Char) (h : isPySpace c = true) : isEmojiChar c = false := by
  simp only [isPySpace, decide_eq_true_eq] at h
  simp only [isEmojiChar, decide_eq_false_iff_not]
  omega

/-- Emoji characters are not whitespace. -/
theorem emoji_not_space (c : Char) (h : isEmojiChar c = true) : isPySpace c = false := by
  simp only [isEmojiChar, decide_eq_true_eq] at h
  simp only [isPySpace, decide_eq_false_iff_not]
  omega

/-- Extraction equals the in-order filter of the emoji characters. -/
theorem extract_emojis_eq_filter (x : String) :
    extract_emojis x = String.mk (x.data.filter isEmojiChar) := by
  unfold extract_emojis
  by_cases h : pyStrip x = ""
  · rw [if_pos h]
    have hnil : pyStripList x.data = [] := congrArg String.data h
    have hsp := pyStripList_eq_nil x.data hnil
    have : x.data.filter isEmojiChar = [] := by
      rw [List.filter_eq_nil_iff]
      intro a ha
      simp [space_not_emoji a (hsp a ha)]
    rw [this]
  · rw [if_neg h]
    exact congrArg String.mk (emojiFindall_flatten x.data.length x.data (Nat.le_refl _))

/-- C8: extract_emojis concatenates the emoji characters in order of
appearance, is idempotent, and returns the empty string on input
without emoji characters, including empty and all-whitespace input. -/
theorem c8_extract_emojis_props (x : String) :
    extract_emojis x = String.mk (x.data.filter isEmojiChar) ∧
    extract_emojis (extract_emojis x) = extract_emojis x ∧
    ((∀ c ∈ x.data, isEmojiChar c = false) → extract_emojis x = "") := by
  refine ⟨extract_emojis_eq_filter x, ?_, ?_⟩
  · rw [extract_emojis_eq_filter x, extract_emojis_eq_filter (String.mk (x.data.filter isEmojiChar))]
    show String.mk ((x.data.filter isEmojiChar).filter isEmojiChar) = _
    rw [List.filter_eq_self.mpr fun a ha => List.of_mem_filter ha]
  · intro h
    rw [extract_emojis_eq_filter x]
    have : x.data.filter isEmojiChar = [] := by
      rw [List.filter_eq_nil_iff]; intro a ha; simp [h a ha]
    rw [this]

/-- C8 witness: the no-emoji clause discharged at a concrete string. -/
theorem c8_extract_emojis_props_witness : extract_emojis "hola" = "" :=
  (c8_extract_emojis_props "hola").2.2 (by decide)

/-- C2: the spec example line with the spaced meridiem marker, a
period then a space then m, does not match the line pattern: the time
group allows an optional whitespace only before the a-or-p and none
between the optional period and the m. The parser skips the line and
emits no record, although the docstring of parse_whatsapp_lines
advertises exactly this line shape and the time normalization has a
dedicated rewrite for the spaced spelling. The same line with the
unspaced marker parses to the expected decomposition. -/
theorem c2_spaced_meridiem_skipped :
    waMatch "3/1/2022, 8:30 a. m. - Ana: Hola".data = none ∧
    parse_whatsapp_lines ["3/1/2022, 8:30 a. m. - Ana: Hola"] = [] ∧
    parse_whatsapp_lines ["3/1/2022, 8:30 a.m. - Ana: Hola"] =
      [⟨⟨2022, 1, 3, 8, 30, 0⟩, "Ana", "Hola"⟩] := by
  refine ⟨by decide, by decide, by decide⟩

/-- The carried-state component of one Telegram step: unchanged for
service nodes, unparseable dates and senderless nodes, overwritten by
an explicit sender, independent of the text checks. -/
theorem tgStep_fst (st : Option String) (n : TgNode) :
    (tgStep st n).1 =
      if "service" ∈ n.classes then st
      else match tgNodeDate n with
        | none => st
        | some _ => match n.fromName with
          | some s => some s
          | none => st := by
  unfold tgStep
  by_cases hs : "service" ∈ n.classes
  · simp [hs]
  · cases tgNodeDate n with
    | none => simp [hs]
    | some d =>
      cases n.fromName with
      | some s => cases n.textContent with
        | none => simp [hs]
        | some t => by_cases ht : t = "" <;> simp [hs, ht]
      | none => cases n.textContent with
        | none => simp [hs]
        | some t => by_cases ht : t = "" <;> simp [hs, ht]

/-- The Telegram fold distributes over list append, carrying the state
across the boundary. -/
theorem tgParseFrom_append (st : Option String) (l1 l2 : List TgNode) :
    tgParseFrom st (l1 ++ l2) = tgParseFrom st l1 ++ tgParseFrom (tgStateAfter st l1) l2 := by
  induction l1 generalizing st with
  | nil => simp [tgParseFrom, tgStateAfter]
  | cons n ns ih =>
    rcases h : tgStep st n with ⟨st2, msg⟩
    cases msg with
    | none =>
      show tgParseFrom st (n :: (ns ++ l2)) = _
      simp only [tgParseFrom, tgStateAfter, h]
      exact ih st2
    | some m =>
      show tgParseFrom st (n :: (ns ++ l2)) = _
      simp only [tgParseFrom, tgStateAfter, h, List.cons_append]
      rw [ih st2]

/-- The carried sender state after a scan is the last explicit sender
recorded by the scan, or the initial state when the scan recorded
none. -/
theorem tgStateAfter_eq (st : Option String) (l : List TgNode) :
    tgStateAfter st l = ((tgSeen l).getLast?).elim st some := by
  induction l generalizing st with
  | nil => simp [tgStateAfter, tgSeen]
  | cons n ns ih =>
    show tgStateAfter (tgStep st n).1 ns = _
    rw [ih ((tgStep st n).1), tgStep_fst st n]
    by_cases hs : "service" ∈ n.classes
    · simp only [hs, if_true]
      have : tgSeen (n :: ns) = tgSeen ns := by
        simp [tgSeen, List.filterMap_cons, hs]
      rw [this]
    · simp only [hs, if_false, if_neg]
      cases hd : tgNodeDate n with
      | none =>
        have : tgSeen (n :: ns) = tgSeen ns := by
          simp [tgSeen, List.filterMap_cons, hs, hd]
        rw [this]
      | some d =>
        cases hf : n.fromName with
        | none =>
          have : tgSeen (n :: ns) = tgSeen ns := by
            simp [tgSeen, List.filterMap_cons, hs, hd, hf]
          rw [this]
        | some s =>
          have hseen : tgSeen (n :: ns) = s :: tgSeen ns := by
            simp [tgSeen, List.filterMap_cons, hs, hd, hf]
          rw [hseen]
          cases htl : tgSeen ns with
          | nil => simp
          | cons a rest =>
            obtain ⟨z, hz⟩ : ∃ z, (a :: rest).getLast? = some z :=
              ⟨(a :: rest).getLast (by simp), List.getLast?_eq_getLast _ _⟩
            simp [hz]

/-- C4 counterexample: a node whose from_name div is present but empty
is an explicit sender in the scan, yet the following senderless node is
attributed the Unknown sentinel rather than that sender, because the
carried state is read under Python truthiness and the empty string is
falsy. -/
theorem c4_counterexample :
    parse_telegram_html [nodeEmptySender, nodeSenderless] =
      [⟨⟨2022, 1, 1, 10, 0, 0⟩, "", "hola"⟩, ⟨⟨2022, 1, 1, 10, 1, 0⟩, "Unknown", "mundo"⟩] ∧
    (tgSeen [nodeEmptySender]).getLast? = some "" ∧
    ("Unknown" : String) ≠ "" := by
  refine ⟨by decide, by decide, by decide⟩

/-- C4 (amended): a senderless node with a parseable timestamp,
non-service class and nonempty text is attributed the most recently
seen explicit sender of the same scan when that sender is nonempty,
and the Unknown sentinel when no explicit sender was seen or the most
recent one is the empty string; the carried state starts empty on
every call, so nothing leaks across files. -/
theorem c4_sender_inheritance (pre post : List TgNode) (n : TgNode) (dtv : DateTime) (t : String)
    (hserv : "service" ∉ n.classes)
    (hdate : tgNodeDate n = some dtv)
    (hfrom : n.fromName = none)
    (htext : n.textContent = some t) (hne : ¬ t = "") :
    parse_telegram_html (pre ++ n :: post) =
      tgParseFrom none pre ++
        ⟨dtv, tgResolve ((tgSeen pre).getLast?), t⟩ ::
          tgParseFrom ((tgSeen pre).getLast?) post := by
  have hst : tgStateAfter none pre = (tgSeen pre).getLast? := by
    rw [tgStateAfter_eq]
    cases (tgSeen pre).getLast? <;> rfl
  show tgParseFrom none (pre ++ n :: post) = _
  rw [tgParseFrom_append, hst]
  congr 1
  have hstep : tgStep ((tgSeen pre).getLast?) n =
      ((tgSeen pre).getLast?, some ⟨dtv, tgResolve ((tgSeen pre).getLast?), t⟩) := by
    unfold tgStep
    simp [hserv, hdate, hfrom, htext, hne]
  show tgParseFrom ((tgSeen pre).getLast?) (n :: post) = _
  simp only [tgParseFrom, hstep]

/-- C4 witness: the amended statement applied to a document with an
explicit nonempty sender followed by a senderless node. -/
theorem c4_sender_inheritance_witness :
    parse_telegram_html ([nodeAna] ++ nodeSenderless :: []) =
      tgParseFrom none [nodeAna] ++
        ⟨⟨2022, 1, 1, 10, 1, 0⟩, tgResolve ((tgSeen [nodeAna]).getLast?), "mundo"⟩ ::
          tgParseFrom ((tgSeen [nodeAna]).getLast?) [] :=
  c4_sender_inheritance [nodeAna] [] nodeSenderless ⟨2022, 1, 1, 10, 1, 0⟩ "mundo"
    (by decide) (by decide) rfl rfl (by decide)

/-- C10: a non-service node with explicit sender and parseable
timestamp updates the carried sender state even when it emits no
record for lacking a text div or having empty text; a later senderless
node then inherits that sender, so the two-node scan emits exactly the
one record of the later node, attributed to the sender of the
record-less node. -/
theorem c10_state_update_without_record (st : Option String) (n m : TgNode) (s t : String)
    (dn dm : DateTime)
    (h1 : "service" ∉ n.classes) (h2 : tgNodeDate n = some dn)
    (h3 : n.fromName = some s) (h4 : n.textContent = none ∨ n.textContent = some "")
    (h5 : "service" ∉ m.classes) (h6 : tgNodeDate m = some dm)
    (h7 : m.fromName = none) (h8 : m.textContent = some t) (h9 : ¬ t = "") (h10 : ¬ s = "") :
    tgStep st n = (some s, none) ∧ tgParseFrom st [n, m] = [⟨dm, s, t⟩] := by
  have hstep : tgStep st n = (some s, none) := by
    unfold tgStep
    rcases h4 with h4 | h4 <;> simp [h1, h2, h3, h4]
  refine ⟨hstep, ?_⟩
  have hstep2 : tgStep (some s) m = (some s, some ⟨dm, s, t⟩) := by
    unfold tgStep
    simp [h5, h6, h7, h8, h9, tgResolve, h10]
  simp only [tgParseFrom, hstep, hstep2]

/-- C10 witness: the statement at the concrete pair of nodes, the
first with sender Ana and no text div. -/
theorem c10_state_update_without_record_witness :
    tgStep none nodeAnaNoText = (some "Ana", none) ∧
    tgParseFrom none [nodeAnaNoText, nodeSenderless] =
      [⟨⟨2022, 1, 1, 10, 1, 0⟩, "Ana", "mundo"⟩] :=
  c10_state_update_without_record none nodeAnaNoText nodeSenderless "Ana" "mundo"
    ⟨2022, 1, 1, 10, 0, 0⟩ ⟨2022, 1, 1, 10, 1, 0⟩
    (by decide) (by decide) rfl (Or.inl rfl) (by decide) (by decide) rfl rfl
    (by decide) (by decide)

/-- Arithmetical reading of the timestamp comparison. -/
theorem dtLeB_iff (a b : DateTime) : dtLeB a b = true ↔
    (a.year < b.year ∨ (a.year = b.year ∧ (a.month < b.month ∨ (a.month = b.month ∧
      (a.day < b.day ∨ (a.day = b.day ∧ (a.hour < b.hour ∨ (a.hour = b.hour ∧
        (a.minute < b.minute ∨ (a.minute = b.minute ∧ a.second ≤ b.second)))))))))) := by
  simp only [dtLeB]
  split_ifs <;> simp only [decide_eq_true_eq] <;> omega

/-- Totality of the timestamp comparison. -/
theorem dtLeB_total (a b : DateTime) : dtLeB a b = true ∨ dtLeB b a = true := by
  rw [dtLeB_iff, dtLeB_iff]
  omega

/-- Transitivity of the timestamp comparison. -/
theorem dtLeB_trans (a b c : DateTime) (h1 : dtLeB a b = true) (h2 : dtLeB b c = true) :
    dtLeB a c = true := by
  rw [dtLeB_iff] at h1 h2 ⊢
  omega

/-- C6 counterexample: pandas sort_values with the default kind admits
the key-ordered permutation that swaps two rows with equal timestamps,
so the sorted output need not preserve the relative input order of
ties. -/
theorem c6_counterexample :
    sort_values_spec ([rowW] ++ [rowT]) [rowT, rowW] ∧
    ¬ tieOrderPreserved ([rowW] ++ [rowT]) [rowT, rowW] := by
  constructor
  · constructor
    · decide
    · decide
  · intro h
    have := h rowW rowT (by decide) (by decide) rfl (by decide)
    revert this
    decide

/-- C6 (amended): every output admitted by the sort_values contract on
the concatenated WhatsApp and Telegram rows is a permutation of the
concatenation that is non-decreasing in timestamp, and at least one
admitted output exists; the relative order of equal-timestamp rows is
not guaranteed, because the default sort kind is not stable. -/
theorem c6_sorted_merge (wa tg out : List MRow) (h : sort_values_spec (wa ++ tg) out) :
    List.Perm out (wa ++ tg) ∧ List.Chain' rowLe out ∧
    sort_values_spec (wa ++ tg) (List.insertionSort rowLe (wa ++ tg)) := by
  refine ⟨h.1, List.Pairwise.chain' h.2, ?_, ?_⟩
  · exact List.perm_insertionSort rowLe (wa ++ tg)
  · haveI : IsTotal MRow rowLe := ⟨fun a b => dtLeB_total a.dt b.dt⟩
    haveI : IsTrans MRow rowLe := ⟨fun a b c => dtLeB_trans a.dt b.dt c.dt⟩
    exact List.sorted_insertionSort rowLe (wa ++ tg)

/-- C6 witness: the amended statement applied to the two fixture rows
in their input order. -/
theorem c6_sorted_merge_witness :
    List.Perm [rowW, rowT] ([rowW] ++ [rowT]) ∧ List.Chain' rowLe [rowW, rowT] ∧
    sort_values_spec ([rowW] ++ [rowT]) (List.insertionSort rowLe ([rowW] ++ [rowT])) :=
  c6_sorted_merge [rowW] [rowT] [rowW, rowT] ⟨by decide, by decide⟩

/-- C9: the final stage joins the lowercased surface forms, not the
lemmas. With the es_core_news_sm analysis of the sentence about
running dogs (surface perros corren, lemmas perro correr) clean_text
returns the surface forms, differing from the join of the lemmas of
the surviving tokens that the claim and the docstring (lemmatize with
spaCy) describe: the code reads token.lower_ where the documented
behaviour needs token.lemma_. -/
theorem c9_lower_not_lemma :
    clean_text envC9 "perros corren" = "perros corren" ∧
    String.mk (joinSpace (((envC9.tokenize (preclean "perros corren")).filter
      (token_keep envC9)).map fun t => t.lemma_.data)) = "perro correr" ∧
    clean_text envC9 "perros corren" ≠
      String.mk (joinSpace (((envC9.tokenize (preclean "perros corren")).filter
        (token_keep envC9)).map fun t => t.lemma_.data)) := by
  refine ⟨by decide, by decide, by decide⟩

/-- Valid small codepoints survive the Char.ofNat round trip. -/
theorem charOfNat_toNat (m : Nat) (h : m < 0xD800) : (Char.ofNat m).val.toNat = m := by
  have hv : Nat.isValidChar m := Or.inl h
  simp only [Char.ofNat]
  rw [dif_pos hv]
  simp only [Char.ofNatAux, UInt32.ofNat', UInt32.toNat]
  simp [BitVec.toNat_ofNatLt]

/-- Lowercasing is idempotent on characters. -/
theorem pyLowerChar_idem (c : Char) : pyLowerChar (pyLowerChar c) = pyLowerChar c := by
  unfold pyLowerChar
  by_cases h1 : 65 ≤ c.val.toNat ∧ c.val.toNat ≤ 90
  · rw [if_pos h1]
    have hv : (Char.ofNat (c.val.toNat + 32)).val.toNat = c.val.toNat + 32 :=
      charOfNat_toNat _ (by omega)
    simp only [hv]
    rw [if_neg (by omega), if_neg (by omega)]
  · rw [if_neg h1]
    by_cases h2 : 0xC0 ≤ c.val.toNat ∧ c.val.toNat ≤ 0xDE ∧ c.val.toNat ≠ 0xD7
    · rw [if_pos h2]
      have hv : (Char.ofNat (c.val.toNat + 32)).val.toNat = c.val.toNat + 32 :=
        charOfNat_toNat _ (by omega)
      simp only [hv]
      rw [if_neg (by omega), if_neg (by omega)]
    · rw [if_neg h2, if_neg h1, if_neg h2]

/-- A list of lower-fixed characters is untouched by the lowercase
map. -/
theorem map_pyLowerChar_fixed (l : List Char) (h : ∀ c ∈ l, pyLowerChar c = c) :
    l.map pyLowerChar = l := by
  induction l with
  | nil => rfl
  | cons c cs ih =>
    simp only [List.map_cons, h c (by simp), ih fun d hd => h d (List.mem_cons_of_mem _ hd)]

/-- Emoji-class characters are not word characters. -/
theorem emoji_not_word (c : Char) (h : isEmojiChar c = true) : pyWordChar c = false := by
  simp only [isEmojiChar, decide_eq_true_eq] at h
  simp only [pyWordChar, decide_eq_false_iff_not]
  omega

/-- Extraction of the branches of an orElse that produced a value. -/
theorem orElse_eq_some' {α : Type} (a : Option α) (f : Unit → Option α) (x : α)
    (h : a.orElse f = some x) : a = some x ∨ f () = some x := by
  cases a with
  | none => right; simpa [Option.orElse] using h
  | some y => left; simpa [Option.orElse] using h

/-- A dropWhile result is a suffix. -/
theorem dropWhile_suffix' (p : Char → Bool) (l : List Char) : l.dropWhile p <:+ l := by
  induction l with
  | nil => simp
  | cons c cs ih =>
    by_cases h : p c
    · rw [List.dropWhile_cons_of_pos h]
      exact ih.trans (List.suffix_cons c cs)
    · rw [List.dropWhile_cons_of_neg h]

/-- A suffix stays a suffix under one more leading character. -/
theorem suffix_cons_of (a : Char) {l r : List Char} (h : r <:+ l) : r <:+ a :: l :=
  h.trans (List.suffix_cons a l)

/-- The URL tail matcher returns a suffix. -/
theorem tryHttpTail_suffix (l r : List Char) (h : tryHttpTail l = some r) : r <:+ l := by
  unfold tryHttpTail at h
  split at h
  · split at h
    · exact absurd h (by simp)
    · rename_i r0 _
      have hr : r = r0.dropWhile fun c => !(isPySpace c) := by simpa using h.symm
      rw [hr]
      exact suffix_cons_of _ (suffix_cons_of _ (suffix_cons_of _ (dropWhile_suffix' _ r0)))
  · exact absurd h (by simp)

/-- The URL matcher returns a suffix. -/
theorem tryUrl_suffix (l r : List Char) (h : tryUrl l = some r) : r <:+ l := by
  unfold tryUrl at h
  split at h
  · rename_i r0
    revert h
    split
    · rename_i r1
      intro h
      rcases orElse_eq_some' _ _ _ h with h | h
      · exact suffix_cons_of _ (suffix_cons_of _ (suffix_cons_of _ (suffix_cons_of _
          (suffix_cons_of _ (tryHttpTail_suffix _ _ h)))))
      · exact suffix_cons_of _ (suffix_cons_of _ (suffix_cons_of _ (suffix_cons_of _
          (tryHttpTail_suffix _ _ h))))
    · intro h
      exact suffix_cons_of _ (suffix_cons_of _ (suffix_cons_of _ (suffix_cons_of _
        (tryHttpTail_suffix _ _ h))))
  · rename_i r0
    split at h
    · exact absurd h (by simp)
    · have hr : r = r0.dropWhile fun c => !(isPySpace c) := by simpa using h.symm
      rw [hr]
      exact suffix_cons_of _ (suffix_cons_of _ (suffix_cons_of _ (suffix_cons_of _
        (dropWhile_suffix' _ r0))))
  · exact absurd h (by simp)

/-- The mention matcher returns a suffix. -/
theorem tryMention_suffix (l r : List Char) (h : tryMention l = some r) : r <:+ l := by
  unfold tryMention at h
  split at h
  · rename_i r0
    split at h
    · exact absurd h (by simp)
    · have hr : r = r0.dropWhile pyWordChar := by simpa using h.symm
      rw [hr]
      exact suffix_cons_of _ (dropWhile_suffix' _ r0)
  · exact absurd h (by simp)

/-- The digit-run consumer returns a drop, hence a suffix. -/
theorem takeDigits_suffix (k : Nat) (l r : List Char) (h : takeDigits k l = some r) : r <:+ l := by
  unfold takeDigits at h
  split at h
  · have hr : r = l.drop k := by simpa using h.symm
    rw [hr]; exact List.drop_suffix k l
  · exact absurd h (by simp)

/-- The phone tail matcher returns a suffix. -/
theorem phoneTail_suffix (l r : List Char) (h : phoneTail l = some r) : r <:+ l := by
  simp only [phoneTail] at h
  split at h
  · have hr : r = l.drop (min (l.takeWhile isAsciiDigit).length 14) := by simpa using h.symm
    rw [hr]; exact List.drop_suffix _ l
  · exact absurd h (by simp)

/-- The fixed-width phone matcher returns a suffix. -/
theorem tryPhoneLen_suffix (k : Nat) (l r : List Char) (h : tryPhoneLen k l = some r) : r <:+ l := by
  unfold tryPhoneLen at h
  split at h
  · rename_i r1 hr1
    revert h
    split
    · rename_i c r2
      intro h
      split at h
      · rcases orElse_eq_some' _ _ _ h with h | h
        · exact ((suffix_cons_of _ (phoneTail_suffix _ _ h)).trans (takeDigits_suffix _ _ _ hr1))
        · exact (phoneTail_suffix _ _ h).trans (takeDigits_suffix _ _ _ hr1)
      · exact (phoneTail_suffix _ _ h).trans (takeDigits_suffix _ _ _ hr1)
    · intro h; exact absurd h (by simp)
  · exact absurd h (by simp)

/-- The phone matcher returns a suffix. -/
theorem tryPhone_suffix (l r : List Char) (h : tryPhone l = some r) : r <:+ l := by
  unfold tryPhone at h
  split at h
  · rename_i r0
    rcases orElse_eq_some' _ _ _ h with h | h
    · rcases orElse_eq_some' _ _ _ h with h | h
      · exact suffix_cons_of _ (tryPhoneLen_suffix _ _ _ h)
      · exact suffix_cons_of _ (tryPhoneLen_suffix _ _ _ h)
    · exact suffix_cons_of _ (tryPhoneLen_suffix _ _ _ h)
  · exact absurd h (by simp)

/-- The year matcher of the date pattern returns a suffix. -/
theorem dateYear_suffix (k : Nat) (l : List Char) (d : Char) (r : List Char)
    (h : dateYear k l = some (d, r)) : r <:+ l := by
  unfold dateYear at h
  split at h
  · rename_i rest hrest
    split at h
    · split at h
      · have hr : r = rest := by simpa using (congrArg (fun p => p.map Prod.snd) h).symm
        rw [hr]; exact takeDigits_suffix _ _ _ hrest
      · exact absurd h (by simp)
    · exact absurd h (by simp)
  · exact absurd h (by simp)

/-- The year alternatives of the date pattern return suffixes. -/
theorem dateTailY_suffix (l : List Char) (d : Char) (r : List Char)
    (h : dateTailY l = some (d, r)) : r <:+ l := by
  unfold dateTailY at h
  rcases orElse_eq_some' _ _ _ h with h | h
  · rcases orElse_eq_some' _ _ _ h with h | h
    · exact dateYear_suffix _ _ _ _ h
    · exact dateYear_suffix _ _ _ _ h
  · exact dateYear_suffix _ _ _ _ h

/-- The month matcher of the date pattern returns a suffix. -/
theorem dateMonth_suffix (k : Nat) (l : List Char) (d : Char) (r : List Char)
    (h : dateMonth k l = some (d, r)) : r <:+ l := by
  unfold dateMonth at h
  split at h
  · rename_i r1 hr1
    revert h
    split
    · rename_i c r2
      intro h
      split at h
      · exact ((suffix_cons_of _ (dateTailY_suffix _ _ _ h)).trans (takeDigits_suffix _ _ _ hr1))
      · exact absurd h (by simp)
    · intro h; exact absurd h (by simp)
  · exact absurd h (by simp)

/-- The month alternatives of the date pattern return suffixes. -/
theorem dateAfterSep_suffix (l : List Char) (d : Char) (r : List Char)
    (h : dateAfterSep l = some (d, r)) : r <:+ l := by
  unfold dateAfterSep at h
  rcases orElse_eq_some' _ _ _ h with h | h
  · exact dateMonth_suffix _ _ _ _ h
  · exact dateMonth_suffix _ _ _ _ h

/-- The day matcher of the date pattern returns a suffix. -/
theorem dateDay_suffix (k : Nat) (l : List Char) (d : Char) (r : List Char)
    (h : dateDay k l = some (d, r)) : r <:+ l := by
  unfold dateDay at h
  split at h
  · rename_i r1 hr1
    revert h
    split
    · rename_i c r2
      intro h
      split at h
      · exact ((suffix_cons_of _ (dateAfterSep_suffix _ _ _ h)).trans (takeDigits_suffix _ _ _ hr1))
      · exact absurd h (by simp)
    · intro h; exact absurd h (by simp)
  · exact absurd h (by simp)

/-- The date matcher returns a suffix. -/
theorem tryDate_suffix (prev : Option Char) (l : List Char) (d : Char) (r : List Char)
    (h : tryDate prev l = some (d, r)) : r <:+ l := by
  unfold tryDate at h
  split at h
  · rcases orElse_eq_some' _ _ _ h with h | h
    · exact dateDay_suffix _ _ _ _ h
    · exact dateDay_suffix _ _ _ _ h
  · exact absurd h (by simp)

/-- The minutes matcher of the time pattern returns a suffix. -/
theorem timeMinutes_suffix (l : List Char) (d : Char) (r : List Char)
    (h : timeMinutes l = some (d, r)) : r <:+ l := by
  unfold timeMinutes at h
  split at h
  · rename_i rest hrest
    split at h
    · split at h
      · have hr : r = rest := by simpa using (congrArg (fun p => p.map Prod.snd) h).symm
        rw [hr]; exact takeDigits_suffix _ _ _ hrest
      · exact absurd h (by simp)
    · exact absurd h (by simp)
  · exact absurd h (by simp)

/-- The hour matcher of the time pattern returns a suffix. -/
theorem timeHour_suffix (k : Nat) (l : List Char) (d : Char) (r : List Char)
    (h : timeHour k l = some (d, r)) : r <:+ l := by
  unfold timeHour at h
  split at h
  · rename_i r1 hr1
    revert h
    split
    · rename_i r2
      intro h
      exact ((suffix_cons_of _ (timeMinutes_suffix _ _ _ h)).trans (takeDigits_suffix _ _ _ hr1))
    · intro h; exact absurd h (by simp)
  · exact absurd h (by simp)

/-- The time matcher returns a suffix. -/
theorem tryTime_suffix (prev : Option Char) (l : List Char) (d : Char) (r : List Char)
    (h : tryTime prev l = some (d, r)) : r <:+ l := by
  unfold tryTime at h
  split at h
  · rcases orElse_eq_some' _ _ _ h with h | h
    · exact timeHour_suffix _ _ _ _ h
    · exact timeHour_suffix _ _ _ _ h
  · exact absurd h (by simp)

/-- Characters emitted by the context-free deletion scanner come from
the input. -/
theorem subDelAux_mem (tm : List Char → Option (List Char))
    (htm : ∀ l r, tm l = some r → r <:+ l) :
    ∀ fuel l, ∀ c ∈ subDelAux tm fuel l, c ∈ l := by
  intro fuel
  induction fuel with
  | zero => intro l c hc; simpa [subDelAux] using hc
  | succ fuel ih =>
    intro l c hc
    cases l with
    | nil => simp [subDelAux] at hc
    | cons a as =>
      simp only [subDelAux] at hc
      cases htm' : tm (a :: as) with
      | some rest =>
        rw [htm'] at hc
        exact (htm _ _ htm').subset (ih rest c hc)
      | none =>
        rw [htm'] at hc
        rcases List.mem_cons.mp hc with hc | hc
        · simp [hc]
        · exact List.mem_cons_of_mem _ (ih as c hc)

/-- Characters emitted by the context-carrying deletion scanner come
from the input. -/
theorem subDelCtxAux_mem (tm : Option Char → List Char → Option (Char × List Char))
    (htm : ∀ p l d r, tm p l = some (d, r) → r <:+ l) :
    ∀ fuel prev l, ∀ c ∈ subDelCtxAux tm prev fuel l, c ∈ l := by
  intro fuel
  induction fuel with
  | zero => intro prev l c hc; simpa [subDelCtxAux] using hc
  | succ fuel ih =>
    intro prev l c hc
    cases l with
    | nil => simp [subDelCtxAux] at hc
    | cons a as =>
      simp only [subDelCtxAux] at hc
      cases htm' : tm prev (a :: as) with
      | some p =>
        obtain ⟨d, rest⟩ := p
        rw [htm'] at hc
        exact (htm _ _ _ _ htm').subset (ih (some d) rest c hc)
      | none =>
        rw [htm'] at hc
        rcases List.mem_cons.mp hc with hc | hc
        · simp [hc]
        · exact List.mem_cons_of_mem _ (ih (some a) as c hc)

/-- Characters after the punctuation substitution are word characters
or whitespace, and come from the input or are the written space. -/
theorem punctSub_chars (l : List Char) :
    ∀ c ∈ punctSub l, (pyWordChar c = true ∨ isPySpace c = true) ∧ (c ∈ l ∨ c = ' ') := by
  intro c hc
  rcases List.mem_map.mp hc with ⟨x, hx, hfx⟩
  by_cases hw : pyWordChar x
  · rw [if_neg (by simp [hw])] at hfx
    exact ⟨Or.inl (hfx ▸ hw), Or.inl (hfx ▸ hx)⟩
  · by_cases hs : isPySpace x
    · rw [if_neg (by simp [hs])] at hfx
      exact ⟨Or.inr (hfx ▸ hs), Or.inl (hfx ▸ hx)⟩
    · rw [if_pos ⟨by simp [hw], by simp [hs]⟩] at hfx
      refine ⟨Or.inr ?_, Or.inr hfx.symm⟩
      rw [← hfx]; decide

/-- Characters surviving the emoji deletion come from the input. -/
theorem emojiSubList_mem (l : List Char) : ∀ c ∈ emojiSubList l, c ∈ l := by
  intro c hc; exact List.mem_of_mem_filter hc

/-- First components of the run-length encoding come from the input. -/
theorem rle_fst_mem : ∀ l : List Char, ∀ p ∈ rle l, p.1 ∈ l := by
  intro l
  induction l with
  | nil => simp [rle]
  | cons c cs ih =>
    intro p hp
    simp only [rle] at hp
    cases h : rle cs with
    | nil => rw [h] at hp; simp at hp; simp [hp]
    | cons q rest =>
      obtain ⟨d, k⟩ := q
      rw [h] at hp
      dsimp only at hp
      by_cases hcd : c = d
      · rw [if_pos hcd] at hp
        rcases List.mem_cons.mp hp with hp | hp
        · simp [hp, hcd]
        · exact List.mem_cons_of_mem _ (ih p (h ▸ List.mem_cons_of_mem _ hp))
      · rw [if_neg hcd] at hp
        rcases List.mem_cons.mp hp with hp | hp
        · simp [hp]
        · exact List.mem_cons_of_mem _ (ih p (h ▸ hp))

/-- Run lengths of the encoding are positive. -/
theorem rle_pos : ∀ l : List Char, ∀ p ∈ rle l, 1 ≤ p.2 := by
  intro l
  induction l with
  | nil => simp [rle]
  | cons c cs ih =>
    intro p hp
    simp only [rle] at hp
    cases h : rle cs with
    | nil => rw [h] at hp; simp at hp; simp [hp]
    | cons q rest =>
      obtain ⟨d, k⟩ := q
      rw [h] at hp
      dsimp only at hp
      by_cases hcd : c = d
      · rw [if_pos hcd] at hp
        rcases List.mem_cons.mp hp with hp | hp
        · simp [hp]
        · exact ih p (h ▸ List.mem_cons_of_mem _ hp)
      · rw [if_neg hcd] at hp
        rcases List.mem_cons.mp hp with hp | hp
        · simp [hp]
        · exact ih p (h ▸ hp)

/-- Adjacent runs of the encoding carry distinct characters. -/
theorem rle_chain : ∀ l : List Char, List.Chain' (fun p q : Char × Nat => p.1 ≠ q.1) (rle l) := by
  intro l
  induction l with
  | nil => simp [rle]
  | cons c cs ih =>
    simp only [rle]
    cases h : rle cs with
    | nil => simp
    | cons q rest =>
      obtain ⟨d, k⟩ := q
      rw [h] at ih
      dsimp only
      by_cases hcd : c = d
      · rw [if_pos hcd]
        cases rest with
        | nil => simp
        | cons q2 rest2 =>
          rw [List.chain'_cons] at ih ⊢
          exact ⟨ih.1, ih.2⟩
      · rw [if_neg hcd]
        rw [List.chain'_cons]
        exact ⟨hcd, ih⟩

/-- Characters of the repeated-run collapse come from the input. -/
theorem collapseRepeats_mem (l : List Char) : ∀ c ∈ collapseRepeats l, c ∈ l := by
  intro c hc
  simp only [collapseRepeats] at hc
  rcases List.mem_flatMap.mp hc with ⟨p, hp, hcp⟩
  have := List.eq_of_mem_replicate hcp
  rw [this]
  exact rle_fst_mem l p hp

/-- Unfolding of the triple test at a three-deep list. -/
theorem hasTriple_cons_cons_cons (a b c : Char) (l : List Char) :
    hasTriple (a :: b :: c :: l) = ((a = b ∧ b = c : Bool) || hasTriple (b :: c :: l)) := rfl

/-- A list shorter than three has no triple. -/
theorem hasTriple_short (l : List Char) (h : l.length ≤ 2) : hasTriple l = false := by
  match l, h with
  | [], _ => rfl
  | [a], _ => rfl
  | [a, b], _ => rfl

/-- The triple test ignores a dropped head. -/
theorem hasTriple_tail (a : Char) (l : List Char) (h : hasTriple (a :: l) = false) :
    hasTriple l = false := by
  match l, h with
  | [], _ => rfl
  | [b], _ => rfl
  | b :: c :: rest, h => simpa [hasTriple_cons_cons_cons] using (Bool.or_eq_false_iff.mp h).2

/-- The head of the block decoding is the first run character. -/
theorem flatMap_emit_head (blocks : List (Char × Nat)) (hpos : ∀ p ∈ blocks, 1 ≤ p.2) :
    ((blocks.flatMap fun p => List.replicate (if 3 ≤ p.2 then 1 else p.2) p.1).head? =
      blocks.head?.map fun p => p.1) := by
  cases blocks with
  | nil => rfl
  | cons p rest =>
    obtain ⟨c, k⟩ := p
    have hk : 1 ≤ k := hpos (c, k) (by simp)
    have hm : 1 ≤ if 3 ≤ k then 1 else k := by split <;> omega
    simp only [List.flatMap_cons]
    cases hv : (if 3 ≤ k then 1 else k) with
    | zero => omega
    | succ m =>
      rw [List.replicate_succ]
      simp

/-- Appending at most two copies of a character to a triple-free list
whose head differs from it stays triple-free. -/
theorem hasTriple_replicate_append (c : Char) (m : Nat) (rest : List Char)
    (hm : m ≤ 2) (hr : ∀ x, rest.head? = some x → x ≠ c) (ht : hasTriple rest = false) :
    hasTriple (List.replicate m c ++ rest) = false := by
  have single : hasTriple (c :: rest) = false := by
    match rest, ht with
    | [], _ => rfl
    | [x], _ => rfl
    | x :: y :: rs, ht =>
      rw [hasTriple_cons_cons_cons]
      have hx : x ≠ c := hr x rfl
      simp only [Bool.or_eq_false_iff]
      refine ⟨by simp; intro h; exact absurd h.symm hx, ht⟩
  match m, hm with
  | 0, _ => simpa using ht
  | 1, _ => simpa using single
  | 2, _ =>
    show hasTriple (c :: c :: rest) = false
    match rest, single with
    | [], _ => rfl
    | x :: rs, single =>
      rw [hasTriple_cons_cons_cons]
      have hx : x ≠ c := hr x rfl
      simp only [Bool.or_eq_false_iff]
      refine ⟨by simp; exact fun h => hx h.symm, single⟩

/-- The block decoding of a positively-sized, adjacent-distinct run
list is triple-free when every block emits at most two characters. -/
theorem flatMap_emit_noTriple (blocks : List (Char × Nat))
    (hchain : List.Chain' (fun p q : Char × Nat => p.1 ≠ q.1) blocks)
    (hpos : ∀ p ∈ blocks, 1 ≤ p.2) :
    hasTriple (blocks.flatMap fun p => List.replicate (if 3 ≤ p.2 then 1 else p.2) p.1) = false := by
  induction blocks with
  | nil => rfl
  | cons p rest ih =>
    obtain ⟨c, k⟩ := p
    simp only [List.flatMap_cons]
    apply hasTriple_replicate_append
    · split <;> [omega; exact Nat.le_of_lt_succ (by omega)]
    · intro x hx
      rw [flatMap_emit_head rest (fun q hq => hpos q (List.mem_cons_of_mem _ hq))] at hx
      cases rest with
      | nil => simp at hx
      | cons q rest2 =>
        simp at hx
        have := (List.chain'_cons.mp hchain).1
        rw [← hx]
        exact fun hexact => this hexact.symm
    · exact ih ((List.chain'_cons'.mp hchain).2) (fun q hq => hpos q (List.mem_cons_of_mem _ hq))

/-- The repeated-run collapse leaves no triple. -/
theorem collapseRepeats_noTriple (l : List Char) : hasTriple (collapseRepeats l) = false :=
  flatMap_emit_noTriple (rle l) (rle_chain l) (rle_pos l)

/-- The head of the whitespace collapse in skipping state is never
whitespace. -/
theorem collapseWsAux_head_true (l : List Char) :
    ∀ x, (collapseWsAux true l).head? = some x → isPySpace x = false := by
  induction l with
  | nil => intro x hx; simp [collapseWsAux] at hx
  | cons c cs ih =>
    intro x hx
    simp only [collapseWsAux] at hx
    by_cases hc : isPySpace c
    · rw [if_pos hc] at hx
      exact ih x hx
    · rw [if_neg hc] at hx
      simp at hx
      rw [← hx]
      simpa using hc

/-- Characters of the whitespace collapse are non-whitespace characters
of the input or the written single space. -/
theorem collapseWsAux_mem (l : List Char) :
    ∀ b, ∀ c ∈ collapseWsAux b l, (c ∈ l ∧ isPySpace c = false) ∨ c = ' ' := by
  induction l with
  | nil => intro b c hc; simp [collapseWsAux] at hc
  | cons a as ih =>
    intro b c hc
    simp only [collapseWsAux] at hc
    by_cases ha : isPySpace a
    · rw [if_pos ha] at hc
      by_cases hb : b
      · rw [if_pos hb] at hc
        rcases ih true c hc with ⟨h1, h2⟩ | h
        · exact Or.inl ⟨List.mem_cons_of_mem _ h1, h2⟩
        · exact Or.inr h
      · rw [if_neg hb] at hc
        rcases List.mem_cons.mp hc with hc | hc
        · exact Or.inr hc
        · rcases ih true c hc with ⟨h1, h2⟩ | h
          · exact Or.inl ⟨List.mem_cons_of_mem _ h1, h2⟩
          · exact Or.inr h
    · rw [if_neg ha] at hc
      rcases List.mem_cons.mp hc with hc | hc
      · exact Or.inl ⟨by simp [hc], by rw [hc]; simpa using ha⟩
      · rcases ih false c hc with ⟨h1, h2⟩ | h
        · exact Or.inl ⟨List.mem_cons_of_mem _ h1, h2⟩
        · exact Or.inr h

/-- The whitespace collapse preserves freedom from triples. -/
theorem collapseWsAux_noTriple (l : List Char) :
    ∀ b, hasTriple l = false → hasTriple (collapseWsAux b l) = false := by
  induction l with
  | nil => intro b _; rfl
  | cons c cs ih =>
    intro b ht
    have htcs : hasTriple cs = false := hasTriple_tail c cs ht
    simp only [collapseWsAux]
    by_cases hc : isPySpace c
    · rw [if_pos hc]
      by_cases hb : b
      · rw [if_pos hb]
        exact ih true htcs
      · rw [if_neg hb]
        have hrest := ih true htcs
        cases hl : collapseWsAux true cs with
        | nil => rfl
        | cons x xs =>
          have hx : isPySpace x = false := collapseWsAux_head_true cs x (by simp [hl])
          cases xs with
          | nil => rfl
          | cons y ys =>
            rw [hasTriple_cons_cons_cons]
            simp only [Bool.or_eq_false_iff]
            constructor
            · simp
              intro hsx
              exfalso
              rw [← hsx] at hx
              exact absurd hx (by decide)
            · rw [← hl]; exact hrest
    · rw [if_neg hc]
      have hrest := ih false htcs
      cases cs with
      | nil => exact hasTriple_short _ (by simp [collapseWsAux])
      | cons d rest =>
        by_cases hd : isPySpace d
        · have hl : collapseWsAux false (d :: rest) = ' ' :: collapseWsAux true rest := by
            simp [collapseWsAux, hd]
          rw [hl]
          cases hl2 : collapseWsAux true rest with
          | nil =>
            apply hasTriple_short
            simp
          | cons x xs =>
            rw [hasTriple_cons_cons_cons]
            simp only [Bool.or_eq_false_iff]
            constructor
            · simp
              intro hcs
              exfalso
              rw [hcs] at hc
              exact hc (by decide)
            · rw [← hl2, ← hl]; exact hrest
        · have hl : collapseWsAux false (d :: rest) = d :: collapseWsAux false rest := by
            simp [collapseWsAux, hd]
          rw [hl]
          have htrest : hasTriple rest = false := hasTriple_tail d rest htcs
          by_cases hcd : c = d
          · cases rest with
            | nil => exact hasTriple_short _ (by simp [collapseWsAux])
            | cons e rest2 =>
              by_cases he : isPySpace e
              · have hl2 : collapseWsAux false (e :: rest2) = ' ' :: collapseWsAux true rest2 := by
                  simp [collapseWsAux, he]
                rw [hl2, hasTriple_cons_cons_cons]
                simp only [Bool.or_eq_false_iff]
                constructor
                · simp
                  intro _ hds
                  exfalso
                  rw [hds] at hd
                  exact hd (by decide)
                · rw [← hl2, ← hl]; exact hrest
              · have hl2 : collapseWsAux false (e :: rest2) = e :: collapseWsAux false rest2 := by
                  simp [collapseWsAux, he]
                rw [hl2, hasTriple_cons_cons_cons]
                simp only [Bool.or_eq_false_iff]
                constructor
                · simp
                  intro hcdeq hde
                  have : hasTriple (c :: d :: e :: rest2) = false := ht
                  rw [hasTriple_cons_cons_cons] at this
                  simp [hcdeq, hde] at this
                · rw [← hl2, ← hl]; exact hrest
          · cases hl3 : collapseWsAux false rest with
            | nil =>
              apply hasTriple_short
              simp
            | cons x xs =>
              rw [hasTriple_cons_cons_cons]
              simp only [Bool.or_eq_false_iff]
              constructor
              · simp [hcd]
              · rw [← hl3, ← hl]; exact hrest

/-- Segment containment is transitive. -/
theorem subSegment_trans {a b c : List Char} (h1 : subSegment a b) (h2 : subSegment b c) :
    subSegment a c := by
  rcases h1 with ⟨p1, s1, h1⟩
  rcases h2 with ⟨p2, s2, h2⟩
  exact ⟨p2 ++ p1, s1 ++ s2, by rw [← h2, ← h1]; simp⟩

/-- Segment containment gives membership containment. -/
theorem subSegment_subset {a b : List Char} (h : subSegment a b) : ∀ c ∈ a, c ∈ b := by
  rcases h with ⟨p, s, h⟩
  intro c hc
  rw [← h]
  simp [hc]

/-- The dropWhile result is a segment. -/
theorem dropWhile_subSegment (p : Char → Bool) (l : List Char) :
    subSegment (l.dropWhile p) l :=
  ⟨l.takeWhile p, [], by simp [List.takeWhile_append_dropWhile]⟩

/-- The stripped list is a segment of the original. -/
theorem pyStripList_subSegment (l : List Char) : subSegment (pyStripList l) l := by
  unfold pyStripList
  refine subSegment_trans ?_ (dropWhile_subSegment isPySpace l)
  refine ⟨[], ((l.dropWhile isPySpace).reverse.takeWhile isPySpace).reverse, ?_⟩
  have h := List.takeWhile_append_dropWhile (p := isPySpace)
    (l := (l.dropWhile isPySpace).reverse)
  have h2 := congrArg List.reverse h
  simp only [List.reverse_append, List.reverse_reverse] at h2
  simpa using h2

/-- A triple survives appending on the right. -/
theorem hasTriple_append_right (l t : List Char) (h : hasTriple l = true) :
    hasTriple (l ++ t) = true := by
  induction l with
  | nil => simp [hasTriple] at h
  | cons a l2 ih =>
    match l2, h, ih with
    | [], h, _ => simp [hasTriple] at h
    | [b], h, _ => simp [hasTriple] at h
    | b :: c :: rest, h, ih =>
      rw [hasTriple_cons_cons_cons] at h
      rcases Bool.or_eq_true_iff.mp h with h | h
      · show hasTriple (a :: b :: c :: (rest ++ t)) = true
        rw [hasTriple_cons_cons_cons, h, Bool.true_or]
      · show hasTriple (a :: b :: c :: (rest ++ t)) = true
        rw [hasTriple_cons_cons_cons]
        have := ih h
        simp only [List.cons_append] at this
        rw [this, Bool.or_true]

/-- A triple survives one prepended character. -/
theorem hasTriple_cons_mono (a : Char) (l : List Char) (h : hasTriple l = true) :
    hasTriple (a :: l) = true := by
  match l, h with
  | [], h => simp [hasTriple] at h
  | [b], h => simp [hasTriple] at h
  | b :: c :: rest, h => rw [hasTriple_cons_cons_cons, h, Bool.or_true]

/-- A triple survives prepending on the left. -/
theorem hasTriple_append_left (p l : List Char) (h : hasTriple l = true) :
    hasTriple (p ++ l) = true := by
  induction p with
  | nil => simpa using h
  | cons a p2 ih => exact hasTriple_cons_mono a _ ih

/-- Freedom from triples passes to segments. -/
theorem noTriple_of_subSegment {l1 l2 : List Char} (h : subSegment l1 l2)
    (ht : hasTriple l2 = false) : hasTriple l1 = false := by
  cases h1 : hasTriple l1 with
  | false => rfl
  | true =>
    exfalso
    rcases h with ⟨p, s, hps⟩
    have : hasTriple l2 = true := by
      rw [← hps, List.append_assoc]
      exact hasTriple_append_left p _ (hasTriple_append_right l1 s h1)
    rw [this] at ht
    simp at ht

/-- Characters of a joined token list come from some token or are the
separating space. -/
theorem joinSpace_mem : ∀ ts : List (List Char), ∀ c ∈ joinSpace ts,
    (∃ t ∈ ts, c ∈ t) ∨ c = ' ' := by
  intro ts
  induction ts with
  | nil => simp [joinSpace]
  | cons t ts2 ih =>
    intro c hc
    cases ts2 with
    | nil =>
      simp only [joinSpace] at hc
      exact Or.inl ⟨t, by simp, hc⟩
    | cons t2 ts3 =>
      simp only [joinSpace] at hc
      rcases List.mem_append.mp hc with hc | hc
      · exact Or.inl ⟨t, by simp, hc⟩
      · rcases List.mem_cons.mp hc with hc | hc
        · exact Or.inr hc
        · rcases ih c hc with ⟨u, hu, hcu⟩ | hsp
          · exact Or.inl ⟨u, List.mem_cons_of_mem _ hu, hcu⟩
          · exact Or.inr hsp

/-- The head of a join of nonempty space-free tokens is not a space. -/
theorem joinSpace_head (ts : List (List Char))
    (h : ∀ t ∈ ts, t ≠ [] ∧ ∀ c ∈ t, c ≠ ' ') :
    ∀ x, (joinSpace ts).head? = some x → x ≠ ' ' := by
  intro x hx
  cases ts with
  | nil => simp [joinSpace] at hx
  | cons t ts2 =>
    obtain ⟨hne, hnsp⟩ := h t (by simp)
    cases t with
    | nil => exact absurd rfl hne
    | cons c t2 =>
      cases ts2 with
      | nil =>
        simp only [joinSpace] at hx
        simp at hx
        exact hx ▸ hnsp c (by simp)
      | cons t3 ts3 =>
        simp only [joinSpace, List.cons_append] at hx
        simp at hx
        exact hx ▸ hnsp c (by simp)

/-- Appending a space and a triple-free list with non-space head to a
space-free triple-free list leaves no triple. -/
theorem append_space_noTriple (A B : List Char)
    (hA : ∀ c ∈ A, c ≠ ' ') (htA : hasTriple A = false)
    (htB : hasTriple B = false) (hB : ∀ x, B.head? = some x → x ≠ ' ') :
    hasTriple (A ++ ' ' :: B) = false := by
  have base : hasTriple (' ' :: B) = false := by
    match B, htB with
    | [], _ => rfl
    | [x], _ => rfl
    | x :: y :: rs, htB =>
      rw [hasTriple_cons_cons_cons]
      simp only [Bool.or_eq_false_iff]
      refine ⟨?_, htB⟩
      simp
      intro hsx
      exact absurd hsx.symm (hB x rfl)
  induction A with
  | nil => simpa using base
  | cons a A2 ih =>
    have ha : a ≠ ' ' := hA a (by simp)
    have hA2 : ∀ c ∈ A2, c ≠ ' ' := fun c hc => hA c (List.mem_cons_of_mem _ hc)
    have htA2 : hasTriple A2 = false := hasTriple_tail a A2 htA
    have ihA := ih hA2 htA2
    cases A2 with
    | nil =>
      show hasTriple (a :: ' ' :: B) = false
      match B, htB with
      | [], _ => rfl
      | x :: rs, _ =>
        rw [hasTriple_cons_cons_cons]
        simp only [Bool.or_eq_false_iff]
        refine ⟨by simp; intro h; exact absurd h ha, by simpa using base⟩
    | cons b A3 =>
      show hasTriple (a :: b :: (A3 ++ ' ' :: B)) = false
      cases A3 with
      | nil =>
        rw [show ([] : List Char) ++ ' ' :: B = ' ' :: B from rfl,
            hasTriple_cons_cons_cons]
        simp only [Bool.or_eq_false_iff]
        refine ⟨?_, by simpa using ihA⟩
        simp
        intro _ hbs
        exact absurd hbs (hA b (by simp))
      | cons d A4 =>
        rw [show (d :: A4) ++ ' ' :: B = d :: (A4 ++ ' ' :: B) from rfl,
            hasTriple_cons_cons_cons]
        simp only [Bool.or_eq_false_iff]
        constructor
        · have : hasTriple (a :: b :: d :: A4) = false := htA
          rw [hasTriple_cons_cons_cons] at this
          exact (Bool.or_eq_false_iff.mp this).1
        · simpa using ihA

/-- A join of nonempty, space-free, triple-free tokens is
triple-free. -/
theorem joinSpace_noTriple (ts : List (List Char))
    (h : ∀ t ∈ ts, t ≠ [] ∧ (∀ c ∈ t, c ≠ ' ') ∧ hasTriple t = false) :
    hasTriple (joinSpace ts) = false := by
  induction ts with
  | nil => rfl
  | cons t ts2 ih =>
    cases ts2 with
    | nil => exact (h t (by simp)).2.2
    | cons t2 ts3 =>
      show hasTriple (t ++ ' ' :: joinSpace (t2 :: ts3)) = false
      obtain ⟨hne, hnsp, hnt⟩ := h t (by simp)
      refine append_space_noTriple t _ hnsp hnt
        (ih fun u hu => h u (List.mem_cons_of_mem _ hu)) ?_
      exact joinSpace_head (t2 :: ts3)
        (fun u hu => ⟨(h u (List.mem_cons_of_mem _ hu)).1, (h u (List.mem_cons_of_mem _ hu)).2.1⟩)

/-- Characters of the first cleaning stage are fixed points of
lowercasing. -/
theorem stage1_fixed (text : String) : ∀ c ∈ stage1 text, pyLowerChar c = c := by
  intro c hc
  simp only [stage1, pyLower] at hc
  rcases List.mem_map.mp hc with ⟨x, hx, hfx⟩
  by_cases hnl : x = '\n' ∨ x = '\r'
  · rw [if_pos hnl] at hfx
    rw [← hfx]; decide
  · rw [if_neg hnl] at hfx
    rcases List.mem_map.mp hx with ⟨y, _, hxy⟩
    rw [← hfx, ← hxy]
    exact pyLowerChar_idem y

/-- Characters surviving the URL deletion come from the input. -/
theorem urlSub_mem (l : List Char) : ∀ c ∈ urlSub l, c ∈ l :=
  subDelAux_mem tryUrl tryUrl_suffix l.length l

/-- Characters surviving the mention deletion come from the input. -/
theorem mentionSub_mem (l : List Char) : ∀ c ∈ mentionSub l, c ∈ l :=
  subDelAux_mem tryMention tryMention_suffix l.length l

/-- Characters surviving the phone deletion come from the input. -/
theorem phoneSub_mem (l : List Char) : ∀ c ∈ phoneSub l, c ∈ l :=
  subDelAux_mem tryPhone tryPhone_suffix l.length l

/-- Characters surviving the date deletion come from the input. -/
theorem dateSub_mem (l : List Char) : ∀ c ∈ dateSub l, c ∈ l :=
  subDelCtxAux_mem tryDate (fun p l2 d r => tryDate_suffix p l2 d r) l.length none l

/-- Characters surviving the time deletion come from the input. -/
theorem timeSub_mem (l : List Char) : ∀ c ∈ timeSub l, c ∈ l :=
  subDelCtxAux_mem tryTime (fun p l2 d r => tryTime_suffix p l2 d r) l.length none l

/-- Characters surviving the whole cascade over an arbitrary lower
fixed input list are word characters or single spaces, and are fixed
points of lowercasing. -/
theorem cascade_chars (l0 : List Char) (hl0 : ∀ c ∈ l0, pyLowerChar c = c) :
    ∀ c ∈ pyStripList (collapseWs (collapseRepeats (punctSub l0))),
      (pyWordChar c = true ∨ c = ' ') ∧ pyLowerChar c = c := by
  intro c hc
  have hc10 := subSegment_subset (pyStripList_subSegment (collapseWs (collapseRepeats (punctSub l0)))) c hc
  rcases collapseWsAux_mem (collapseRepeats (punctSub l0)) false c hc10 with ⟨hc9, hnsp⟩ | hsp
  · have hc8 := collapseRepeats_mem (punctSub l0) c hc9
    have hpc := punctSub_chars l0 c hc8
    have hword : pyWordChar c = true := by
      rcases hpc.1 with h | h
      · exact h
      · rw [h] at hnsp; simp at hnsp
    refine ⟨Or.inl hword, ?_⟩
    rcases hpc.2 with h7 | hspc
    · exact hl0 c h7
    · rw [hspc]; decide
  · rw [hsp]
    exact ⟨Or.inr rfl, by decide⟩

/-- Projection of the string wrapper. -/
theorem string_data_mk (l : List Char) : (String.mk l).data = l := rfl

/-- Every character of the precleaned text is a word character or a
single space, and is a fixed point of lowercasing. -/
theorem preclean_chars (text : String) : ∀ c ∈ (preclean text).data,
    (pyWordChar c = true ∨ c = ' ') ∧ pyLowerChar c = c := by
  intro c hc
  simp only [preclean, string_data_mk] at hc
  refine cascade_chars (timeSub (dateSub (phoneSub (mentionSub (emojiSubList (urlSub (stage1 text))))))) ?_ c hc
  intro d hd
  have h6 := timeSub_mem _ d hd
  have h5 := dateSub_mem _ d h6
  have h4 := phoneSub_mem _ d h5
  have h3 := mentionSub_mem _ d h4
  have h2 := emojiSubList_mem _ d h3
  have h1 := urlSub_mem _ d h2
  exact stage1_fixed text d h1

/-- The precleaned text has no character repeated three times in a
row. -/
theorem preclean_noTriple (text : String) : hasTriple (preclean text).data = false := by
  simp only [preclean, string_data_mk]
  have h9 : hasTriple (collapseRepeats (punctSub (timeSub (dateSub (phoneSub (mentionSub (emojiSubList (urlSub (stage1 text))))))))) = false :=
    collapseRepeats_noTriple (punctSub (timeSub (dateSub (phoneSub (mentionSub (emojiSubList (urlSub (stage1 text))))))))
  have h10 := collapseWsAux_noTriple (collapseRepeats (punctSub (timeSub (dateSub (phoneSub (mentionSub (emojiSubList (urlSub (stage1 text))))))))) false h9
  exact noTriple_of_subSegment
    (pyStripList_subSegment (collapseWs (collapseRepeats (punctSub (timeSub (dateSub (phoneSub (mentionSub (emojiSubList (urlSub (stage1 text))))))))))) h10

/-- C7: for every linguistic environment whose tokenizer returns
nonempty, space-free contiguous substrings of its input (the spaCy
tokenizer is non-destructive, so its token texts are such substrings),
the output of clean_text contains no emoji-class character and no at
sign (hence no mention token), and no character three or more times in
a row. -/
theorem c7_clean_text_clean (env : NlpEnv) (text : String)
    (htok : ∀ tk ∈ env.tokenize (preclean text),
      tk.text.data ≠ [] ∧ (∀ c ∈ tk.text.data, c ≠ ' ') ∧
      subSegment tk.text.data (preclean text).data) :
    (∀ c ∈ (clean_text env text).data, isEmojiChar c = false ∧ c ≠ '@') ∧
    hasTriple (clean_text env text).data = false := by
  by_cases hempty : pyStrip text = ""
  · unfold clean_text
    rw [if_pos hempty]
    exact ⟨fun c hc => by simp at hc, rfl⟩
  · unfold clean_text
    rw [if_neg hempty]
    have hfacts : ∀ w ∈ ((env.tokenize (preclean text)).filter (token_keep env)).map
        (fun t => (pyLower t.text).data),
        w ≠ [] ∧ (∀ c ∈ w, c ≠ ' ') ∧ hasTriple w = false ∧ ∀ c ∈ w, pyWordChar c = true := by
      intro w hw
      rcases List.mem_map.mp hw with ⟨t, ht, hwt⟩
      obtain ⟨hne, hnsp, hseg⟩ := htok t (List.mem_of_mem_filter ht)
      have hfix : ∀ c ∈ t.text.data, pyLowerChar c = c := fun c hc =>
        (preclean_chars text c (subSegment_subset hseg c hc)).2
      have hlower : (pyLower t.text).data = t.text.data := by
        show (String.mk (t.text.data.map pyLowerChar)).data = t.text.data
        simpa using map_pyLowerChar_fixed t.text.data hfix
      rw [← hwt, hlower]
      refine ⟨hne, hnsp, noTriple_of_subSegment hseg (preclean_noTriple text), ?_⟩
      intro c hc
      rcases (preclean_chars text c (subSegment_subset hseg c hc)).1 with h | h
      · exact h
      · exact absurd h (hnsp c hc)
    constructor
    · intro c hc
      have hc2 : c ∈ joinSpace (((env.tokenize (preclean text)).filter (token_keep env)).map
          fun t => (pyLower t.text).data) := hc
      rcases joinSpace_mem _ c hc2 with ⟨w, hw, hcw⟩ | hsp
      · have hword := (hfacts w hw).2.2.2 c hcw
        constructor
        · cases he : isEmojiChar c
          · rfl
          · rw [emoji_not_word c he] at hword
            exact absurd hword (by simp)
        · intro hat
          rw [hat] at hword
          exact absurd hword (by decide)
      · rw [hsp]
        exact ⟨by decide, by decide⟩
    · exact joinSpace_noTriple _
        (fun w hw => ⟨(hfacts w hw).1, (hfacts w hw).2.1, (hfacts w hw).2.2.1⟩)

/-- C7 witness: the statement applied to the whitespace tokenizer and
a concrete noisy string. -/
theorem c7_clean_text_clean_witness :
    (∀ c ∈ (clean_text envW "hooola").data, isEmojiChar c = false ∧ c ≠ '@') ∧
    hasTriple (clean_text envW "hooola").data = false := by
  apply c7_clean_text_clean
  intro tk htk
  have hred : envW.tokenize (preclean "hooola") = [⟨"hola", "hola", false⟩] := by decide
  rw [hred] at htk
  simp at htk
  subst htk
  exact ⟨by decide, by decide, [], [], by decide⟩
